import Mathlib

/-!
Verification of the storage engine in `src/backend/env/storage.rs`:
a free-list segment allocator over stable memory (`Allocator`), the root
persistence layer (`heap_to_stable` / `stable_to_heap`), and the
shard-backed blob store (`Storage::allocate_space` / `write_to_bucket`).

The Rust `BTreeMap<u64, u64>` is embedded as a list of key-value pairs
kept sorted by key; all operations mirror the `BTreeMap` methods used by
the source (`insert`, `remove`, `range(..k).last()`, `range(k..).next()`,
iteration in key order, `first_key_value`).
-/

/-- `BTreeMap::insert` on a key-sorted association list: replaces the value
at an existing key, otherwise inserts at the sorted position. -/
def mapInsert (k v : Nat) : List (Nat × Nat) → List (Nat × Nat)
  | [] => [(k, v)]
  | (k', v') :: rest =>
    if k < k' then (k, v) :: (k', v') :: rest
    else if k = k' then (k, v) :: rest
    else (k', v') :: mapInsert k v rest

/-- `BTreeMap::remove` on an association list: drops the entry with the
given key (the first one, which is unique in a well-formed map). -/
def mapRemove (k : Nat) : List (Nat × Nat) → List (Nat × Nat)
  | [] => []
  | (k', v') :: rest => if k' = k then rest else (k', v') :: mapRemove k rest

/-- `segments.range(..o).last()`: the last entry in iteration order whose
key is strictly below `o` (on a sorted map: the greatest key below `o`). -/
def rangeBelowLast (o : Nat) : List (Nat × Nat) → Option (Nat × Nat)
  | [] => none
  | p :: rest =>
    match rangeBelowLast o rest with
    | some q => some q
    | none => if p.1 < o then some p else none

/-- `segments.range(k..).next()`: the first entry in iteration order whose
key is at least `k` (on a sorted map: the least key at or above `k`). -/
def rangeFromFirst (k : Nat) : List (Nat × Nat) → Option (Nat × Nat)
  | [] => none
  | p :: rest => if k ≤ p.1 then some p else rangeFromFirst k rest

/-- Key membership test for the association list. -/
def hasKey (k : Nat) (l : List (Nat × Nat)) : Bool :=
  l.any (fun p => p.1 == k)

/-- `BTreeMap::remove(&k).expect(..)`: `none` models the panic taken when
the key is absent. -/
def removeChecked (k : Nat) (l : List (Nat × Nat)) : Option (List (Nat × Nat)) :=
  if hasKey k l then some (mapRemove k l) else none

/-- `BTreeMap::insert(k, v).expect(..)`: the source unwraps the previous
value, so `none` models the panic taken when no previous value existed. -/
def insertChecked (k v : Nat) (l : List (Nat × Nat)) : Option (List (Nat × Nat)) :=
  if hasKey k l then some (mapInsert k v l) else none

/-- The portion of the free list actually visited by `Allocator::alloc`'s
candidate scan: everything up to and including the first segment whose
length equals `n` (the scan breaks there), or the whole list. -/
def scannedSegs (n : Nat) : List (Nat × Nat) → List (Nat × Nat)
  | [] => []
  | p :: rest => if p.2 = n then [p] else p :: scannedSegs n rest

/-- The `candidates` map built by `Allocator::alloc`: iterate segments in
key order, insert `(size, start)` for every segment with `size >= n`,
breaking after the first exact-size match. Keyed by size, so a later
segment of equal size overwrites an earlier one. -/
def buildCandidates (n : Nat) : List (Nat × Nat) → List (Nat × Nat) → List (Nat × Nat)
  | acc, [] => acc
  | acc, (start, size) :: rest =>
    if size = n then (if n ≤ size then mapInsert size start acc else acc)
    else buildCandidates n (if n ≤ size then mapInsert size start acc else acc) rest

/-- The allocator state: free segments (`start ↦ length`, kept sorted by
start), the allocation frontier `boundary`, and `memSize`, the current
stable-memory size in bytes observed through the `mem_size` closure
(`stable64_size() << 16`) and advanced by the `mem_grow` closure. -/
structure Allocator where
  segments : List (Nat × Nat)
  boundary : Nat
  memSize : Nat
deriving Repr, DecidableEq

/-- Result of one `alloc` call: the returned offset, the state after the
call, and the list of arguments passed to `mem_grow` (one entry per call). -/
structure AllocResult where
  offset : Nat
  state : Allocator
  growCalls : List Nat
deriving Repr, DecidableEq

/-- `Allocator::alloc`: pick the smallest sufficient free segment from the
candidates map (first key value = least size); if the segment is strictly
larger, reinsert the remainder. With no candidate, allocate at `boundary`,
advance it, and if the new boundary reaches `mem_size()`, call
`mem_grow(n)`, which executes `stable64_grow(n >> 16)` (adding `n >> 16`
pages, i.e. `(n >>> 16) * 65536` bytes). -/
def Allocator.alloc (a : Allocator) (n : Nat) : AllocResult :=
  let candidates := buildCandidates n [] a.segments
  let step : Nat × Option (Nat × Nat) × Nat × Nat × List Nat :=
    match candidates.head? with
    | some (size, start) =>
      (start, if n < size then some (start + n, size - n) else none,
        a.boundary, a.memSize, [])
    | none =>
      let boundary := a.boundary + n
      if a.memSize ≤ boundary then
        (a.boundary, none, boundary, a.memSize + Nat.shiftRight n 16 * 65536, [n])
      else
        (a.boundary, none, boundary, a.memSize, [])
  match step with
  | (start, newSegment, boundary, memSize, grows) =>
    let segments := mapRemove start a.segments
    let segments :=
      match newSegment with
      | some (s, z) => mapInsert s z segments
      | none => segments
    ⟨start, ⟨segments, boundary, memSize⟩, grows⟩

/-- `Allocator::free` acting on the segments map. Looks up the nearest
free segment strictly before `offset` and the nearest one at or after
`offset + size`, then coalesces following the source's four match arms.
`none` models a panic (a failed `assert!` or `expect`). -/
def freeSegments (segs : List (Nat × Nat)) (offset size : Nat) :
    Option (List (Nat × Nat)) :=
  let left_segment := rangeBelowLast offset segs
  let right_segment := rangeFromFirst (offset + size) segs
  match left_segment, right_segment with
  | some (l_start, l_size), some (r_start, r_size) =>
    if l_start + l_size = offset ∧ offset + size = r_start then
      if offset + size ≤ r_start then
        match removeChecked l_start segs with
        | none => none
        | some s1 =>
          match removeChecked r_start s1 with
          | none => none
          | some s2 => some (mapInsert l_start (l_size + size + r_size) s2)
      else none
    else if offset + size = r_start then
      if offset + size ≤ r_start then
        match removeChecked r_start segs with
        | none => none
        | some s1 => some (mapInsert offset (size + r_size) s1)
      else none
    else if l_start + l_size = offset then
      insertChecked l_start (l_size + size) segs
    else some (mapInsert offset size segs)
  | none, some (r_start, r_size) =>
    if offset + size = r_start then
      if offset + size ≤ r_start then
        match removeChecked r_start segs with
        | none => none
        | some s1 => some (mapInsert offset (size + r_size) s1)
      else none
    else some (mapInsert offset size segs)
  | some (l_start, l_size), none =>
    if l_start + l_size = offset then
      insertChecked l_start (l_size + size) segs
    else some (mapInsert offset size segs)
  | none, none => some (mapInsert offset size segs)

/-- `Allocator::free` on the full allocator state. -/
def Allocator.free (a : Allocator) (offset size : Nat) : Option Allocator :=
  (freeSegments a.segments offset size).map fun s => { a with segments := s }

/-- One allocator call in a client history. -/
inductive AllocOp where
  | alloc (n : Nat)
  | free (offset size : Nat)
deriving Repr, DecidableEq

/-- Outstanding-allocation bookkeeping for a history: a positive-size
allocation is recorded when `alloc` returns. -/
def allocOut (r : AllocResult) (n : Nat) (out : List (Nat × Nat)) :
    List (Nat × Nat) :=
  if 0 < n then (r.offset, n) :: out else out

/-- Run a history of `alloc`/`free` calls, tracking outstanding allocated
blocks. `none` when some `free` does not give back exactly one previously
allocated, not yet freed block (or when `free` itself panics). -/
def runOps : Allocator → List (Nat × Nat) → List AllocOp →
    Option (Allocator × List (Nat × Nat))
  | a, out, [] => some (a, out)
  | a, out, AllocOp.alloc n :: rest =>
    let r := a.alloc n
    runOps r.state (allocOut r n out) rest
  | a, out, AllocOp.free o l :: rest =>
    if (o, l) ∈ out then
      match a.free o l with
      | some a' => runOps a' (out.erase (o, l)) rest
      | none => none
    else none

/-- Stable memory: the byte at every address, plus the current size in
bytes (`stable64_size() << 16`). Writes model `stable64_write`. -/
structure Mem where
  bytes : Nat → Nat
  size : Nat

/-- `stable64_write(off, data)`. -/
def memWrite (m : Mem) (off : Nat) (data : List Nat) : Mem :=
  { m with
    bytes := fun i =>
      if off ≤ i ∧ i < off + data.length then data.getD (i - off) 0
      else m.bytes i }

/-- `stable64_read(off, buf)` of `len` bytes. -/
def memRead (m : Mem) (off len : Nat) : List Nat :=
  (List.range len).map fun i => m.bytes (off + i)

/-- `u64::to_be_bytes`: the eight big-endian bytes of a 64-bit integer. -/
def toBeBytes (n : Nat) : List Nat :=
  [n / 72057594037927936 % 256, n / 281474976710656 % 256,
    n / 1099511627776 % 256, n / 4294967296 % 256, n / 16777216 % 256,
    n / 65536 % 256, n / 256 % 256, n % 256]

/-- `u64::from_be_bytes` after `copy_from_slice` of an 8-byte response. -/
def fromBeBytes (bs : List Nat) : Nat :=
  bs.foldl (fun acc b => acc * 256 + b) 0

/-- Modelled from the spec: the application root object (`super::State`,
defined outside `storage.rs`) embeds the allocator's own free list and
boundary, next to the rest of the application data (`payload`). -/
structure RootState (α : Type) where
  payload : α
  segments : List (Nat × Nat)
  boundary : Nat
deriving DecidableEq

/-- The `alloc` call issued by `heap_to_stable` through `Storage::write`:
it acts on a temporary default `Storage` whose allocator received a copy
of the state's segments and boundary, and whose memory closures read the
real stable-memory size. -/
def persistAlloc {α : Type} (ser : RootState α → List Nat) (st : RootState α)
    (m : Mem) : AllocResult :=
  Allocator.alloc ⟨st.segments, st.boundary, m.size⟩ (ser st).length

/-- The sequence of stable-memory writes performed by `heap_to_stable`, in
program order: first the serialized object at the allocated offset
(`Storage::write`), then the root-offset header field at byte 0, then the
root-length header field at byte 8. -/
def heapToStableTrace {α : Type} (ser : RootState α → List Nat)
    (st : RootState α) (m : Mem) : List (Nat × List Nat) :=
  [((persistAlloc ser st m).offset, ser st),
    (0, toBeBytes (persistAlloc ser st m).offset),
    (8, toBeBytes (ser st).length)]

/-- `heap_to_stable`: apply the write trace in order; the stable size is
whatever the temporary allocator's `mem_grow` calls left it at. -/
def heap_to_stable {α : Type} (ser : RootState α → List Nat)
    (st : RootState α) (m : Mem) : Mem :=
  (heapToStableTrace ser st m).foldl (fun acc e => memWrite acc e.1 e.2)
    { m with size := (persistAlloc ser st m).state.memSize }

/-- `heap_address`: read the two 8-byte big-endian header fields. -/
def heap_address (m : Mem) : Nat × Nat :=
  (fromBeBytes (memRead m 0 8), fromBeBytes (memRead m 8 8))

/-- `Storage::read`: read `len` bytes at `offset` and deserialize. -/
def Storage.read {α : Type} (de : List Nat → RootState α) (m : Mem)
    (offset len : Nat) : RootState α :=
  de (memRead m offset len)

/-- `stable_to_heap`: restore the root object from the header coordinates. -/
def stable_to_heap {α : Type} (de : List Nat → RootState α) (m : Mem) :
    RootState α :=
  Storage.read de m (heap_address m).1 (heap_address m).2

/-- `Storage::allocate_space`: find the first bucket (in `BTreeMap`
iteration order, i.e. ordered by principal) whose used size is below
`max_bucket_size`; otherwise create a new canister (`newCanister` is the
awaited result of `canisters::new()`), record it with used size 0, then
install the bucket WASM (`installResult` is the awaited result). Returns
the chosen bucket id together with the bucket table after the call. -/
def allocate_space (buckets : List (Nat × Nat)) (maxBucketSize : Nat)
    (newCanister : Except String Nat) (installResult : Except String Unit) :
    Except String Nat × List (Nat × Nat) :=
  match buckets.find? (fun p => p.2 < maxBucketSize) with
  | some (id, _) => (Except.ok id, buckets)
  | none =>
    match newCanister with
    | Except.error e => (Except.error e, buckets)
    | Except.ok id =>
      let buckets' := mapInsert id 0 buckets
      match installResult with
      | Except.error e => (Except.error e, buckets')
      | Except.ok _ => (Except.ok id, buckets')

/-- `Storage::write_to_bucket`: allocate space, call `write` on the bucket
(`writeResponse` is the awaited raw response, an 8-byte big-endian
offset), and advance the bucket's used size to `offset + blob.len()`. -/
def write_to_bucket (buckets : List (Nat × Nat)) (maxBucketSize : Nat)
    (newCanister : Except String Nat) (installResult : Except String Unit)
    (writeResponse : Except String (List Nat)) (blobLen : Nat) :
    Except String (Nat × Nat) × List (Nat × Nat) :=
  match allocate_space buckets maxBucketSize newCanister installResult with
  | (Except.error e, bs) => (Except.error e, bs)
  | (Except.ok id, bs) =>
    match writeResponse with
    | Except.error e =>
      (Except.error ("could not call write on a bucket: " ++ e), bs)
    | Except.ok response =>
      let offset := fromBeBytes response
      (Except.ok (id, offset), mapInsert id (offset + blobLen) bs)

/-- Separation relation on free segments: the left one ends strictly
before the right one starts (sorted, non-overlapping, non-adjacent). -/
def SegSep (a b : Nat × Nat) : Prop := a.1 + a.2 < b.1

/-- Disjointness of two byte ranges given as (start, length). -/
def SegDisj (a b : Nat × Nat) : Prop := a.1 + a.2 ≤ b.1 ∨ b.1 + b.2 ≤ a.1

/-- Key-sortedness relation for the candidates map (keyed by size). -/
def KeyLt (a b : Nat × Nat) : Prop := a.1 < b.1

/-- Inductive invariant tying an allocator state to the multiset `out` of
outstanding (allocated, not yet freed) blocks. -/
structure AllocInv (a : Allocator) (out : List (Nat × Nat)) : Prop where
  sep : a.segments.Pairwise SegSep
  segPos : ∀ p ∈ a.segments, 0 < p.2
  segBound : ∀ p ∈ a.segments, p.1 + p.2 ≤ a.boundary
  outPos : ∀ q ∈ out, 0 < q.2
  outBound : ∀ q ∈ out, q.1 + q.2 ≤ a.boundary
  outSeg : ∀ q ∈ out, ∀ p ∈ a.segments, SegDisj q p
  outDisj : out.Pairwise SegDisj

instance : DecidableRel SegSep := fun a b =>
  inferInstanceAs (Decidable (a.1 + a.2 < b.1))

instance : DecidableRel SegDisj := fun a b =>
  inferInstanceAs (Decidable (a.1 + a.2 ≤ b.1 ∨ b.1 + b.2 ≤ a.1))

/-! ## Basic facts about the association-list map operations -/

theorem SegDisj.symm_rel : Symmetric SegDisj := fun _ _ h => h.symm

theorem sep_or_of_pairwise {l : List (Nat × Nat)} (h : l.Pairwise SegSep)
    {a b : Nat × Nat} (ha : a ∈ l) (hb : b ∈ l) (hne : a ≠ b) :
    SegSep a b ∨ SegSep b a := by
  have h' : l.Pairwise fun a b => SegSep a b ∨ SegSep b a := h.imp fun hx => Or.inl hx
  exact h'.forall (fun _ _ h => h.symm) ha hb hne

theorem mem_mapInsert {k v : Nat} {l : List (Nat × Nat)} {q : Nat × Nat}
    (h : q ∈ mapInsert k v l) : q = (k, v) ∨ q ∈ l := by
  induction l with
  | nil => simpa [mapInsert] using h
  | cons p rest ih =>
    by_cases h1 : k < p.1
    · simp only [mapInsert, if_pos h1, List.mem_cons] at h
      rcases h with h | h | h
      · exact Or.inl h
      · exact Or.inr (by simp [h])
      · exact Or.inr (List.mem_cons_of_mem _ h)
    · by_cases h2 : k = p.1
      · simp only [mapInsert, if_neg h1, if_pos h2, List.mem_cons] at h
        rcases h with h | h
        · exact Or.inl h
        · exact Or.inr (List.mem_cons_of_mem _ h)
      · simp only [mapInsert, if_neg h1, if_neg h2, List.mem_cons] at h
        rcases h with h | h
        · exact Or.inr (by simp [h])
        · rcases ih h with h | h
          · exact Or.inl h
          · exact Or.inr (List.mem_cons_of_mem _ h)

theorem mapInsert_mem_self (k v : Nat) (l : List (Nat × Nat)) :
    (k, v) ∈ mapInsert k v l := by
  induction l with
  | nil => simp [mapInsert]
  | cons p rest ih =>
    by_cases h1 : k < p.1
    · simp [mapInsert, if_pos h1]
    · by_cases h2 : k = p.1
      · simp [mapInsert, if_neg h1, if_pos h2]
      · simp only [mapInsert, if_neg h1, if_neg h2]
        exact List.mem_cons_of_mem _ ih

theorem mapRemove_sublist (k : Nat) (l : List (Nat × Nat)) :
    (mapRemove k l).Sublist l := by
  induction l with
  | nil => simp [mapRemove]
  | cons p rest ih =>
    by_cases h : p.1 = k
    · simp [mapRemove, h]
    · simpa [mapRemove, h] using ih.cons₂ p

theorem mem_mapRemove {k : Nat} {l : List (Nat × Nat)} {q : Nat × Nat}
    (h : q ∈ mapRemove k l) : q ∈ l :=
  (mapRemove_sublist k l).mem h

theorem mem_mapRemove_of_ne {k : Nat} {l : List (Nat × Nat)} {q : Nat × Nat}
    (h : q ∈ l) (hne : q.1 ≠ k) : q ∈ mapRemove k l := by
  induction l with
  | nil => simp at h
  | cons p rest ih =>
    by_cases hp : p.1 = k
    · simp only [mapRemove, if_pos hp]
      rcases List.mem_cons.mp h with h | h
      · exact absurd (h ▸ hp) hne
      · exact h
    · simp only [mapRemove, if_neg hp]
      rcases List.mem_cons.mp h with h | h
      · exact h ▸ List.mem_cons_self _ _
      · exact List.mem_cons_of_mem _ (ih h)

theorem mem_mapRemove_pairwise {k : Nat} {l : List (Nat × Nat)}
    (hpw : l.Pairwise SegSep) {q : Nat × Nat} (h : q ∈ mapRemove k l) :
    q ∈ l ∧ q.1 ≠ k := by
  refine ⟨mem_mapRemove h, ?_⟩
  induction l with
  | nil => simp [mapRemove] at h
  | cons p rest ih =>
    rcases List.pairwise_cons.mp hpw with ⟨hp, hrest⟩
    by_cases hpk : p.1 = k
    · simp only [mapRemove, if_pos hpk] at h
      have := hp q h
      simp only [SegSep] at this
      omega
    · simp only [mapRemove, if_neg hpk] at h
      rcases List.mem_cons.mp h with h | h
      · exact h ▸ hpk
      · exact ih hrest h

theorem mapInsert_pairwise {l : List (Nat × Nat)} {s z : Nat}
    (hpw : l.Pairwise SegSep)
    (hsep : ∀ p ∈ l, p.1 + p.2 < s ∨ s + z < p.1) :
    (mapInsert s z l).Pairwise SegSep := by
  induction l with
  | nil => simp [mapInsert, List.pairwise_cons]
  | cons p rest ih =>
    rcases List.pairwise_cons.mp hpw with ⟨hp, hrest⟩
    rcases hsep p (List.mem_cons_self _ _) with hps | hps
    · -- p ends before s starts, so s goes after p
      have h1 : ¬ s < p.1 := by omega
      have h2 : ¬ s = p.1 := by omega
      simp only [mapInsert, if_neg h1, if_neg h2]
      refine List.pairwise_cons.mpr ⟨?_, ih hrest (fun q hq => hsep q (List.mem_cons_of_mem _ hq))⟩
      intro q hq
      rcases mem_mapInsert hq with rfl | hq
      · exact hps
      · exact hp q hq
    · -- s + z ends before p starts, so s goes in front
      have h1 : s < p.1 := by omega
      simp only [mapInsert, if_pos h1]
      refine List.pairwise_cons.mpr ⟨?_, hpw⟩
      intro q hq
      rcases List.mem_cons.mp hq with rfl | hq
      · exact hps
      · have := hp q hq
        simp only [SegSep] at this ⊢
        omega

theorem mapInsert_mapRemove_eq {l : List (Nat × Nat)} {k v : Nat}
    (hpw : l.Pairwise SegSep) (hmem : (k, v) ∈ l) :
    mapInsert k v (mapRemove k l) = l := by
  induction l with
  | nil => simp at hmem
  | cons p rest ih =>
    rcases List.pairwise_cons.mp hpw with ⟨hp, hrest⟩
    by_cases hpk : p.1 = k
    · have hpv : p = (k, v) := by
        rcases List.mem_cons.mp hmem with h | h
        · exact h.symm
        · have := hp _ h
          simp only [SegSep, hpk] at this
          omega
      simp only [mapRemove, if_pos hpk]
      cases rest with
      | nil => simp [mapInsert, hpv]
      | cons q rest' =>
        have hq : SegSep p q := (List.pairwise_cons.mp hpw).1 q (List.mem_cons_self _ _)
        have : k < q.1 := by
          simp only [SegSep, hpk] at hq; omega
        simp [mapInsert, if_pos this, hpv]
    · have hmem' : (k, v) ∈ rest := by
        rcases List.mem_cons.mp hmem with h | h
        · exact absurd (congrArg Prod.fst h.symm) hpk
        · exact h
      have hsep := hp _ hmem'
      have h1 : ¬ k < p.1 := by simp only [SegSep] at hsep; omega
      have h2 : ¬ k = p.1 := fun h => hpk h.symm
      simp only [mapRemove, if_neg hpk, mapInsert, if_neg h1, if_neg h2]
      rw [ih hrest hmem']

theorem mapInsert_eq_mapInsert_mapRemove {l : List (Nat × Nat)} {k v w : Nat}
    (hpw : l.Pairwise SegSep) (hmem : (k, w) ∈ l) :
    mapInsert k v l = mapInsert k v (mapRemove k l) := by
  induction l with
  | nil => simp at hmem
  | cons p rest ih =>
    rcases List.pairwise_cons.mp hpw with ⟨hp, hrest⟩
    by_cases hpk : p.1 = k
    · simp only [mapRemove, if_pos hpk]
      have h1 : ¬ k < p.1 := by omega
      have h2 : k = p.1 := hpk.symm
      simp only [mapInsert, if_neg h1, if_pos h2]
      cases rest with
      | nil => simp [mapInsert]
      | cons q rest' =>
        have hq : SegSep p q := hp q (List.mem_cons_self _ _)
        have : k < q.1 := by simp only [SegSep, hpk] at hq; omega
        simp [mapInsert, if_pos this]
    · have hmem' : (k, w) ∈ rest := by
        rcases List.mem_cons.mp hmem with h | h
        · exact absurd (congrArg Prod.fst h.symm) hpk
        · exact h
      have hsep := hp _ hmem'
      have h1 : ¬ k < p.1 := by simp only [SegSep] at hsep; omega
      have h2 : ¬ k = p.1 := fun h => hpk h.symm
      simp only [mapRemove, if_neg hpk, mapInsert, if_neg h1, if_neg h2]
      rw [ih hrest hmem']

/-! ## Facts about the range lookups -/

theorem rangeBelowLast_mem {o : Nat} {l : List (Nat × Nat)} {q : Nat × Nat}
    (h : rangeBelowLast o l = some q) : q ∈ l ∧ q.1 < o := by
  induction l with
  | nil => simp [rangeBelowLast] at h
  | cons p rest ih =>
    simp only [rangeBelowLast] at h
    cases hr : rangeBelowLast o rest with
    | some q' =>
      rw [hr] at h
      obtain ⟨hq, hlt⟩ := ih (hr.trans (congrArg some (Option.some.inj h)))
      exact ⟨List.mem_cons_of_mem _ hq, hlt⟩
    | none =>
      rw [hr] at h
      by_cases hp : p.1 < o
      · simp only [if_pos hp] at h
        exact ⟨(Option.some.inj h) ▸ List.mem_cons_self _ _, (Option.some.inj h) ▸ hp⟩
      · simp [if_neg hp] at h

theorem rangeBelowLast_none {o : Nat} {l : List (Nat × Nat)}
    (h : rangeBelowLast o l = none) : ∀ p ∈ l, ¬ p.1 < o := by
  induction l with
  | nil => simp
  | cons p rest ih =>
    simp only [rangeBelowLast] at h
    cases hr : rangeBelowLast o rest with
    | some q' => simp [hr] at h
    | none =>
      rw [hr] at h
      by_cases hp : p.1 < o
      · simp [if_pos hp] at h
      · intro q hq
        rcases List.mem_cons.mp hq with rfl | hq
        · exact hp
        · exact ih hr q hq

theorem rangeBelowLast_max {o : Nat} {l : List (Nat × Nat)}
    (hpw : l.Pairwise SegSep) {p : Nat × Nat} (hp : p ∈ l) (hlt : p.1 < o) :
    ∃ q, rangeBelowLast o l = some q ∧ p.1 ≤ q.1 := by
  induction l with
  | nil => simp at hp
  | cons a rest ih =>
    rcases List.pairwise_cons.mp hpw with ⟨ha, hrest⟩
    simp only [rangeBelowLast]
    cases hr : rangeBelowLast o rest with
    | some q =>
      refine ⟨q, rfl, ?_⟩
      have hqm := rangeBelowLast_mem hr
      rcases List.mem_cons.mp hp with rfl | hp
      · have := ha _ hqm.1
        simp only [SegSep] at this
        omega
      · obtain ⟨q', hq', hle⟩ := ih hrest hp
        rw [hr] at hq'
        exact (Option.some.inj hq') ▸ hle
    | none =>
      rcases List.mem_cons.mp hp with rfl | hp
      · exact ⟨p, by simp [if_pos hlt], le_refl _⟩
      · exact absurd hlt (rangeBelowLast_none hr p hp)

theorem rangeFromFirst_mem {k : Nat} {l : List (Nat × Nat)} {q : Nat × Nat}
    (h : rangeFromFirst k l = some q) : q ∈ l ∧ k ≤ q.1 := by
  induction l with
  | nil => simp [rangeFromFirst] at h
  | cons p rest ih =>
    simp only [rangeFromFirst] at h
    by_cases hp : k ≤ p.1
    · simp only [if_pos hp] at h
      exact ⟨(Option.some.inj h) ▸ List.mem_cons_self _ _, (Option.some.inj h) ▸ hp⟩
    · simp only [if_neg hp] at h
      obtain ⟨hq, hle⟩ := ih h
      exact ⟨List.mem_cons_of_mem _ hq, hle⟩

theorem rangeFromFirst_none {k : Nat} {l : List (Nat × Nat)}
    (h : rangeFromFirst k l = none) : ∀ p ∈ l, p.1 < k := by
  induction l with
  | nil => simp
  | cons p rest ih =>
    simp only [rangeFromFirst] at h
    by_cases hp : k ≤ p.1
    · simp [if_pos hp] at h
    · intro q hq
      rcases List.mem_cons.mp hq with rfl | hq
      · omega
      · exact ih (by simpa [if_neg hp] using h) q hq

theorem rangeFromFirst_min {k : Nat} {l : List (Nat × Nat)}
    (hpw : l.Pairwise SegSep) {p : Nat × Nat} (hp : p ∈ l) (hle : k ≤ p.1) :
    ∃ q, rangeFromFirst k l = some q ∧ q.1 ≤ p.1 := by
  induction l with
  | nil => simp at hp
  | cons a rest ih =>
    rcases List.pairwise_cons.mp hpw with ⟨ha, hrest⟩
    simp only [rangeFromFirst]
    by_cases hak : k ≤ a.1
    · refine ⟨a, by simp [if_pos hak], ?_⟩
      rcases List.mem_cons.mp hp with rfl | hp
      · exact le_refl _
      · have := ha _ hp
        simp only [SegSep] at this
        omega
    · simp only [if_neg hak]
      rcases List.mem_cons.mp hp with rfl | hp
      · omega
      · exact ih hrest hp

/-! ## Facts about the checked map operations -/

theorem hasKey_of_mem {k v : Nat} {l : List (Nat × Nat)} (h : (k, v) ∈ l) :
    hasKey k l = true := by
  simp only [hasKey, List.any_eq_true]
  exact ⟨(k, v), h, by simp⟩

theorem removeChecked_of_mem {k v : Nat} {l : List (Nat × Nat)}
    (h : (k, v) ∈ l) : removeChecked k l = some (mapRemove k l) := by
  simp [removeChecked, hasKey_of_mem h]

theorem insertChecked_of_mem {k w : Nat} (v : Nat) {l : List (Nat × Nat)}
    (h : (k, w) ∈ l) : insertChecked k v l = some (mapInsert k v l) := by
  simp [insertChecked, hasKey_of_mem h]

example : (Allocator.alloc ⟨[], 16, 16⟩ 8).offset = 16 := by decide
example : (Allocator.alloc ⟨[], 16, 16⟩ 8).state.boundary = 24 := by decide
example : (Allocator.alloc ⟨[(100, 4), (200, 10), (300, 4)], 400, 1000⟩ 4).offset = 100 := by
  decide
example : freeSegments [(16, 8)] 16 8 = some [(16, 8)] := by decide
example : freeSegments [(24, 4)] 16 8 = some [(16, 12)] := by decide
example :
    runOps ⟨[], 16, 64⟩ []
      [AllocOp.alloc 8, AllocOp.alloc 4, AllocOp.alloc 4,
        AllocOp.free 24 4, AllocOp.free 16 8, AllocOp.free 28 4] =
    some (⟨[(16, 16)], 32, 64⟩, []) := by decide

/-! ## Facts about the candidate scan of `Allocator::alloc` -/

theorem mem_mapInsert_of_ne {k0 v0 k v : Nat} {l : List (Nat × Nat)}
    (h : (k, v) ∈ l) (hne : k ≠ k0) : (k, v) ∈ mapInsert k0 v0 l := by
  induction l with
  | nil => simp at h
  | cons p rest ih =>
    by_cases h1 : k0 < p.1
    · simp only [mapInsert, if_pos h1]
      exact List.mem_cons_of_mem _ h
    · by_cases h2 : k0 = p.1
      · simp only [mapInsert, if_neg h1, if_pos h2]
        rcases List.mem_cons.mp h with rfl | h
        · exact absurd (by simpa using h2.symm) hne
        · exact List.mem_cons_of_mem _ h
      · simp only [mapInsert, if_neg h1, if_neg h2]
        rcases List.mem_cons.mp h with rfl | h
        · exact List.mem_cons_self _ _
        · exact List.mem_cons_of_mem _ (ih h)

theorem mapInsert_keyLt {l : List (Nat × Nat)} {k v : Nat}
    (h : l.Pairwise KeyLt) : (mapInsert k v l).Pairwise KeyLt := by
  induction l with
  | nil => simp [mapInsert]
  | cons p rest ih =>
    rcases List.pairwise_cons.mp h with ⟨hp, hrest⟩
    by_cases h1 : k < p.1
    · simp only [mapInsert, if_pos h1]
      refine List.pairwise_cons.mpr ⟨?_, h⟩
      intro q hq
      rcases List.mem_cons.mp hq with rfl | hq
      · exact h1
      · exact lt_trans h1 (hp q hq)
    · by_cases h2 : k = p.1
      · simp only [mapInsert, if_neg h1, if_pos h2]
        refine List.pairwise_cons.mpr ⟨?_, hrest⟩
        intro q hq
        have := hp q hq
        simp only [KeyLt] at this ⊢
        omega
      · simp only [mapInsert, if_neg h1, if_neg h2]
        refine List.pairwise_cons.mpr ⟨?_, ih hrest⟩
        intro q hq
        rcases mem_mapInsert hq with rfl | hq
        · simp only [KeyLt]; omega
        · exact hp q hq

theorem buildCandidates_keyLt {n : Nat} :
    ∀ {segs acc : List (Nat × Nat)}, acc.Pairwise KeyLt →
      (buildCandidates n acc segs).Pairwise KeyLt := by
  intro segs
  induction segs with
  | nil => intro acc h; simpa [buildCandidates] using h
  | cons p rest ih =>
    intro acc h
    obtain ⟨st, sz⟩ := p
    simp only [buildCandidates]
    split_ifs with h1 h2 h3
    · exact mapInsert_keyLt h
    · exact h
    · exact ih (mapInsert_keyLt h)
    · exact ih h

theorem head?_min_key {l : List (Nat × Nat)} (h : l.Pairwise KeyLt)
    {q : Nat × Nat} (hh : l.head? = some q) : ∀ p ∈ l, q.1 ≤ p.1 := by
  cases l with
  | nil => simp at hh
  | cons a rest =>
    obtain rfl : a = q := by simpa using hh
    intro p hp
    rcases List.mem_cons.mp hp with rfl | hp
    · exact le_refl _
    · exact le_of_lt ((List.pairwise_cons.mp h).1 p hp)

theorem scannedSegs_subset {n : Nat} :
    ∀ {segs : List (Nat × Nat)} {p : Nat × Nat},
      p ∈ scannedSegs n segs → p ∈ segs := by
  intro segs
  induction segs with
  | nil => intro p h; simp [scannedSegs] at h
  | cons a rest ih =>
    intro p h
    simp only [scannedSegs] at h
    by_cases ha : a.2 = n
    · rw [if_pos ha] at h
      simp only [List.mem_singleton] at h
      exact h ▸ List.mem_cons_self _ _
    · rw [if_neg ha] at h
      rcases List.mem_cons.mp h with rfl | h
      · exact List.mem_cons_self _ _
      · exact List.mem_cons_of_mem _ (ih h)

theorem scannedSegs_eq_self {n : Nat} :
    ∀ {segs : List (Nat × Nat)}, (∀ p ∈ segs, p.2 ≠ n) →
      scannedSegs n segs = segs := by
  intro segs
  induction segs with
  | nil => intro _; rfl
  | cons a rest ih =>
    intro h
    simp only [scannedSegs, if_neg (h a (List.mem_cons_self _ _))]
    rw [ih fun p hp => h p (List.mem_cons_of_mem _ hp)]

theorem buildCandidates_mem {n : Nat} :
    ∀ {segs acc : List (Nat × Nat)} {q : Nat × Nat},
      q ∈ buildCandidates n acc segs →
      q ∈ acc ∨ ((q.2, q.1) ∈ scannedSegs n segs ∧ n ≤ q.1) := by
  intro segs
  induction segs with
  | nil => intro acc q h; left; simpa [buildCandidates] using h
  | cons p rest ih =>
    intro acc q h
    obtain ⟨st, sz⟩ := p
    simp only [buildCandidates] at h
    simp only [scannedSegs]
    by_cases hsz : sz = n
    · rw [if_pos hsz] at h
      rw [if_pos (show ((st, sz) : Nat × Nat).2 = n from hsz)]
      by_cases hn : n ≤ sz
      · rw [if_pos hn] at h
        rcases mem_mapInsert h with rfl | h
        · right
          exact ⟨List.mem_singleton.mpr rfl, hn⟩
        · left; exact h
      · rw [if_neg hn] at h; left; exact h
    · rw [if_neg hsz] at h
      rw [if_neg (show ¬ ((st, sz) : Nat × Nat).2 = n from hsz)]
      by_cases hn : n ≤ sz
      · rw [if_pos hn] at h
        rcases ih h with h | ⟨hmem, hge⟩
        · rcases mem_mapInsert h with rfl | h
          · right
            exact ⟨List.mem_cons_self _ _, hn⟩
          · left; exact h
        · right; exact ⟨List.mem_cons_of_mem _ hmem, hge⟩
      · rw [if_neg hn] at h
        rcases ih h with h | ⟨hmem, hge⟩
        · left; exact h
        · right; exact ⟨List.mem_cons_of_mem _ hmem, hge⟩

theorem buildCandidates_keys {n : Nat} :
    ∀ {segs acc : List (Nat × Nat)} {k v : Nat}, (k, v) ∈ acc →
      ∃ v', (k, v') ∈ buildCandidates n acc segs := by
  intro segs
  induction segs with
  | nil => intro acc k v h; exact ⟨v, by simpa [buildCandidates] using h⟩
  | cons p rest ih =>
    intro acc k v h
    obtain ⟨st, sz⟩ := p
    simp only [buildCandidates]
    by_cases hk : k = sz
    · subst hk
      split_ifs with h1 h2 h3
      · exact ⟨st, mapInsert_mem_self _ _ _⟩
      · exact ⟨v, h⟩
      · exact ih (mapInsert_mem_self _ _ _)
      · exact ih h
    · split_ifs with h1 h2 h3
      · exact ⟨v, mem_mapInsert_of_ne h hk⟩
      · exact ⟨v, h⟩
      · exact ih (mem_mapInsert_of_ne h hk)
      · exact ih h

theorem buildCandidates_complete {n : Nat} :
    ∀ {segs : List (Nat × Nat)} {p : Nat × Nat},
      p ∈ scannedSegs n segs → n ≤ p.2 →
      ∀ acc, ∃ v, (p.2, v) ∈ buildCandidates n acc segs := by
  intro segs
  induction segs with
  | nil => intro p h; simp [scannedSegs] at h
  | cons a rest ih =>
    intro p hp hnp acc
    obtain ⟨st, sz⟩ := a
    simp only [scannedSegs] at hp
    simp only [buildCandidates]
    by_cases hsz : sz = n
    · rw [if_pos (show ((st, sz) : Nat × Nat).2 = n from hsz)] at hp
      obtain rfl : p = (st, sz) := by simpa using hp
      rw [if_pos hsz, if_pos (show n ≤ sz by simpa using hnp)]
      exact ⟨st, mapInsert_mem_self _ _ _⟩
    · rw [if_neg (show ¬ ((st, sz) : Nat × Nat).2 = n from hsz)] at hp
      rw [if_neg hsz]
      by_cases hn : n ≤ sz
      · rw [if_pos hn]
        rcases List.mem_cons.mp hp with rfl | hp
        · exact buildCandidates_keys (mapInsert_mem_self _ _ _)
        · exact ih hp hnp _
      · rw [if_neg hn]
        rcases List.mem_cons.mp hp with rfl | hp
        · exact absurd (by simpa using hnp) hn
        · exact ih hp hnp _

/-- Specification of the candidate pick: the chosen `(size, start)` is a
segment actually scanned, suffices for `n`, and has the least length among
all scanned segments able to hold `n`. -/
theorem candidates_spec {n : Nat} {segs : List (Nat × Nat)} {size start : Nat}
    (h : (buildCandidates n [] segs).head? = some (size, start)) :
    (start, size) ∈ scannedSegs n segs ∧ n ≤ size ∧
      ∀ p ∈ scannedSegs n segs, n ≤ p.2 → size ≤ p.2 := by
  have hmem : (size, start) ∈ buildCandidates n [] segs := by
    cases hc : buildCandidates n [] segs with
    | nil => rw [hc] at h; simp at h
    | cons q rest =>
      rw [hc] at h
      simp only [List.head?] at h
      exact (Option.some.inj h) ▸ List.mem_cons_self _ _
  rcases buildCandidates_mem hmem with h0 | ⟨hmem', hge⟩
  · simp at h0
  · refine ⟨by simpa using hmem', by simpa using hge, ?_⟩
    intro p hp hnp
    obtain ⟨v, hv⟩ := buildCandidates_complete hp hnp []
    have hsorted : (buildCandidates n [] segs).Pairwise KeyLt :=
      buildCandidates_keyLt List.Pairwise.nil
    exact head?_min_key hsorted h (p.2, v) hv

/-! ## Unfolding lemmas for `Allocator.alloc` -/

theorem Allocator.alloc_found {a : Allocator} {n size start : Nat}
    (h : (buildCandidates n [] a.segments).head? = some (size, start)) :
    a.alloc n = ⟨start,
      ⟨if n < size then mapInsert (start + n) (size - n) (mapRemove start a.segments)
        else mapRemove start a.segments, a.boundary, a.memSize⟩, []⟩ := by
  by_cases hlt : n < size <;> simp [Allocator.alloc, h, hlt]

theorem Allocator.alloc_nofit_grow {a : Allocator} {n : Nat}
    (h : (buildCandidates n [] a.segments).head? = none)
    (hg : a.memSize ≤ a.boundary + n) :
    a.alloc n = ⟨a.boundary, ⟨mapRemove a.boundary a.segments, a.boundary + n,
      a.memSize + Nat.shiftRight n 16 * 65536⟩, [n]⟩ := by
  simp [Allocator.alloc, h, hg]

theorem Allocator.alloc_nofit_nogrow {a : Allocator} {n : Nat}
    (h : (buildCandidates n [] a.segments).head? = none)
    (hg : ¬ a.memSize ≤ a.boundary + n) :
    a.alloc n = ⟨a.boundary,
      ⟨mapRemove a.boundary a.segments, a.boundary + n, a.memSize⟩, []⟩ := by
  simp [Allocator.alloc, h, hg]

/-! ## The free-list invariant -/

theorem eq_of_same_key {segs : List (Nat × Nat)} (hpw : segs.Pairwise SegSep)
    {p q : Nat × Nat} (hp : p ∈ segs) (hq : q ∈ segs) (hk : p.1 = q.1) :
    p = q := by
  by_contra hne
  rcases sep_or_of_pairwise hpw hp hq hne with h | h <;>
    (simp only [SegSep] at h; omega)

theorem inv_alloc {a : Allocator} {out : List (Nat × Nat)} {n : Nat}
    (h : AllocInv a out) :
    AllocInv (a.alloc n).state (allocOut (a.alloc n) n out) := by
  cases hc : (buildCandidates n [] a.segments).head? with
  | some p =>
    obtain ⟨size, start⟩ := p
    obtain ⟨hscan, hn, -⟩ := candidates_spec hc
    have hmem : (start, size) ∈ a.segments := scannedSegs_subset hscan
    have hposz : 0 < size := h.segPos _ hmem
    have hbnd : start + size ≤ a.boundary := h.segBound _ hmem
    rw [Allocator.alloc_found hc]
    simp only [allocOut]
    -- facts about the reduced list
    have hbase : ∀ p ∈ mapRemove start a.segments,
        p ∈ a.segments ∧ (p.1 + p.2 < start ∨ start + size < p.1) := by
      intro p hp
      obtain ⟨hpm, hpk⟩ := mem_mapRemove_pairwise h.sep hp
      refine ⟨hpm, ?_⟩
      have hne : p ≠ (start, size) := fun he => hpk (congrArg Prod.fst he)
      rcases sep_or_of_pairwise h.sep hpm hmem hne with hs | hs <;>
        (simp only [SegSep] at hs; omega)
    have hbasepw : (mapRemove start a.segments).Pairwise SegSep :=
      h.sep.sublist (mapRemove_sublist _ _)
    by_cases hlt : n < size
    · rw [if_pos hlt]
      have hsep' : ∀ p ∈ mapRemove start a.segments,
          p.1 + p.2 < start + n ∨ (start + n) + (size - n) < p.1 := by
        intro p hp
        rcases (hbase p hp).2 with hs | hs <;> omega
      have hsegs' : ∀ p ∈ mapInsert (start + n) (size - n) (mapRemove start a.segments),
          p = (start + n, size - n) ∨
            (p ∈ a.segments ∧ (p.1 + p.2 < start ∨ start + size < p.1)) := by
        intro p hp
        rcases mem_mapInsert hp with hp | hp
        · exact Or.inl hp
        · exact Or.inr (hbase p hp)
      refine ⟨mapInsert_pairwise hbasepw hsep', ?_, ?_, ?_, ?_, ?_, ?_⟩
      · intro p hp
        rcases hsegs' p hp with rfl | ⟨hpm, -⟩
        · simp; omega
        · exact h.segPos p hpm
      · intro p hp
        rcases hsegs' p hp with rfl | ⟨hpm, -⟩
        · simp; omega
        · exact h.segBound p hpm
      · intro q hq
        by_cases hn0 : 0 < n
        · rw [if_pos hn0] at hq
          rcases List.mem_cons.mp hq with rfl | hq
          · simpa using hn0
          · exact h.outPos q hq
        · rw [if_neg hn0] at hq
          exact h.outPos q hq
      · intro q hq
        by_cases hn0 : 0 < n
        · rw [if_pos hn0] at hq
          rcases List.mem_cons.mp hq with rfl | hq
          · simp; omega
          · exact h.outBound q hq
        · rw [if_neg hn0] at hq
          exact h.outBound q hq
      · intro q hq p hp
        have hpdisj : p = (start + n, size - n) ∨
            (p ∈ a.segments ∧ (p.1 + p.2 < start ∨ start + size < p.1)) :=
          hsegs' p hp
        by_cases hn0 : 0 < n
        · rw [if_pos hn0] at hq
          rcases List.mem_cons.mp hq with rfl | hq
          · rcases hpdisj with rfl | ⟨-, hps⟩
            · simp only [SegDisj]; omega
            · simp only [SegDisj]; omega
          · rcases hpdisj with rfl | ⟨hpm, -⟩
            · have := h.outSeg q hq _ hmem
              simp only [SegDisj] at this ⊢; omega
            · exact h.outSeg q hq p hpm
        · rw [if_neg hn0] at hq
          rcases hpdisj with rfl | ⟨hpm, -⟩
          · have := h.outSeg q hq _ hmem
            simp only [SegDisj] at this ⊢; omega
          · exact h.outSeg q hq p hpm
      · by_cases hn0 : 0 < n
        · rw [if_pos hn0]
          refine List.pairwise_cons.mpr ⟨?_, h.outDisj⟩
          intro q hq
          have := h.outSeg q hq _ hmem
          simp only [SegDisj] at this ⊢; omega
        · rw [if_neg hn0]
          exact h.outDisj
    · rw [if_neg hlt]
      have hne : n = size := by omega
      subst hne
      refine ⟨hbasepw, ?_, ?_, ?_, ?_, ?_, ?_⟩
      · intro p hp
        exact h.segPos p (hbase p hp).1
      · intro p hp
        exact h.segBound p (hbase p hp).1
      · intro q hq
        rw [if_pos hposz] at hq
        rcases List.mem_cons.mp hq with rfl | hq
        · simpa using hposz
        · exact h.outPos q hq
      · intro q hq
        rw [if_pos hposz] at hq
        rcases List.mem_cons.mp hq with rfl | hq
        · simpa using hbnd
        · exact h.outBound q hq
      · intro q hq p hp
        rw [if_pos hposz] at hq
        obtain ⟨hpm, hps⟩ := hbase p hp
        rcases List.mem_cons.mp hq with rfl | hq
        · simp only [SegDisj]; omega
        · exact h.outSeg q hq p hpm
      · rw [if_pos hposz]
        refine List.pairwise_cons.mpr ⟨?_, h.outDisj⟩
        intro q hq
        have := h.outSeg q hq _ hmem
        simp only [SegDisj] at this ⊢; omega
  | none =>
    have hbase : ∀ p ∈ mapRemove a.boundary a.segments, p ∈ a.segments :=
      fun p hp => mem_mapRemove hp
    have hbasepw : (mapRemove a.boundary a.segments).Pairwise SegSep :=
      h.sep.sublist (mapRemove_sublist _ _)
    have main : AllocInv ⟨mapRemove a.boundary a.segments, a.boundary + n, a.memSize⟩
        (if 0 < n then (a.boundary, n) :: out else out) := by
      refine ⟨hbasepw, ?_, ?_, ?_, ?_, ?_, ?_⟩
      · intro p hp; exact h.segPos p (hbase p hp)
      · intro p hp
        have := h.segBound p (hbase p hp)
        simp only at this ⊢; omega
      · intro q hq
        by_cases hn0 : 0 < n
        · rw [if_pos hn0] at hq
          rcases List.mem_cons.mp hq with rfl | hq
          · simpa using hn0
          · exact h.outPos q hq
        · rw [if_neg hn0] at hq; exact h.outPos q hq
      · intro q hq
        by_cases hn0 : 0 < n
        · rw [if_pos hn0] at hq
          rcases List.mem_cons.mp hq with rfl | hq
          · simp
          · have := h.outBound q hq; simp only at this ⊢; omega
        · rw [if_neg hn0] at hq
          have := h.outBound q hq; simp only at this ⊢; omega
      · intro q hq p hp
        by_cases hn0 : 0 < n
        · rw [if_pos hn0] at hq
          rcases List.mem_cons.mp hq with rfl | hq
          · have := h.segBound p (hbase p hp)
            simp only [SegDisj]; omega
          · exact h.outSeg q hq p (hbase p hp)
        · rw [if_neg hn0] at hq
          exact h.outSeg q hq p (hbase p hp)
      · by_cases hn0 : 0 < n
        · rw [if_pos hn0]
          refine List.pairwise_cons.mpr ⟨?_, h.outDisj⟩
          intro q hq
          have := h.outBound q hq
          simp only [SegDisj] at this ⊢; omega
        · rw [if_neg hn0]; exact h.outDisj
    by_cases hg : a.memSize ≤ a.boundary + n
    · rw [Allocator.alloc_nofit_grow hc hg]
      simp only [allocOut]
      exact ⟨main.sep, main.segPos, main.segBound, main.outPos, main.outBound,
        main.outSeg, main.outDisj⟩
    · rw [Allocator.alloc_nofit_nogrow hc hg]
      simp only [allocOut]
      exact ⟨main.sep, main.segPos, main.segBound, main.outPos, main.outBound,
        main.outSeg, main.outDisj⟩

/-! ## Invariant preservation by `free` -/

theorem not_mem_erase_self_of_disj {out : List (Nat × Nat)} {o l : Nat}
    (hpw : out.Pairwise SegDisj) (hl : 0 < l) : (o, l) ∉ out.erase (o, l) := by
  induction out with
  | nil => simp
  | cons x rest ih =>
    rcases List.pairwise_cons.mp hpw with ⟨hx, hrest⟩
    by_cases hxe : x = (o, l)
    · subst hxe
      rw [List.erase_cons_head]
      intro hmem
      have := hx _ hmem
      simp only [SegDisj] at this
      omega
    · rw [List.erase_cons_tail (by simpa using hxe)]
      intro hmem
      rcases List.mem_cons.mp hmem with hh | hh
      · exact hxe hh.symm
      · exact ih hrest hh

theorem erase_out_disj {out : List (Nat × Nat)}
    (hpwd : out.Pairwise SegDisj) (houtpos : ∀ q ∈ out, 0 < q.2)
    {o l : Nat} (ho : (o, l) ∈ out) {q : Nat × Nat}
    (hq : q ∈ out.erase (o, l)) : SegDisj q (o, l) := by
  have hqo : q ∈ out := List.mem_of_mem_erase hq
  have hl : 0 < l := houtpos _ ho
  have hne : q ≠ (o, l) := by
    intro he
    exact not_mem_erase_self_of_disj hpwd hl (he ▸ hq)
  exact hpwd.forall SegDisj.symm_rel hqo ho hne

/-- Master lemma: inserting the coalesced segment `(s, z)` into the reduced
free list preserves the invariant, provided the new segment is strictly
separated from every remaining segment and disjoint from every remaining
outstanding block. -/
theorem inv_free_insert {segs : List (Nat × Nat)} {b m : Nat}
    {out : List (Nat × Nat)} {o l : Nat}
    (h : AllocInv ⟨segs, b, m⟩ out) (_ho : (o, l) ∈ out)
    {base : List (Nat × Nat)} {s z : Nat}
    (hbase_sub : ∀ p ∈ base, p ∈ segs)
    (hbase_pw : base.Pairwise SegSep)
    (hsep : ∀ p ∈ base, p.1 + p.2 < s ∨ s + z < p.1)
    (hz : 0 < z) (hbound : s + z ≤ b)
    (hspan : ∀ q ∈ out.erase (o, l), SegDisj q (s, z)) :
    AllocInv ⟨mapInsert s z base, b, m⟩ (out.erase (o, l)) := by
  refine ⟨mapInsert_pairwise hbase_pw hsep, ?_, ?_, ?_, ?_, ?_, ?_⟩
  · intro p hp
    rcases mem_mapInsert hp with rfl | hp
    · simpa using hz
    · exact h.segPos p (hbase_sub p hp)
  · intro p hp
    rcases mem_mapInsert hp with rfl | hp
    · simpa using hbound
    · exact h.segBound p (hbase_sub p hp)
  · intro q hq
    exact h.outPos q (List.mem_of_mem_erase hq)
  · intro q hq
    exact h.outBound q (List.mem_of_mem_erase hq)
  · intro q hq p hp
    rcases mem_mapInsert hp with rfl | hp
    · exact hspan q hq
    · exact h.outSeg q (List.mem_of_mem_erase hq) p (hbase_sub p hp)
  · exact h.outDisj.sublist (List.erase_sublist _ _)

/-- Free with neither neighbor adjacent: insert `(o, l)` standalone. -/
theorem inv_free_shape_d {segs : List (Nat × Nat)} {b m o l : Nat}
    {out : List (Nat × Nat)}
    (h : AllocInv ⟨segs, b, m⟩ out) (ho : (o, l) ∈ out)
    (hstrictL : ∀ p ∈ segs, p.1 < o → p.1 + p.2 < o)
    (hstrictR : ∀ p ∈ segs, ¬ p.1 < o → o + l < p.1) :
    AllocInv ⟨mapInsert o l segs, b, m⟩ (out.erase (o, l)) := by
  refine inv_free_insert h ho (fun p hp => hp) h.sep ?_
    (h.outPos _ ho) (h.outBound _ ho) ?_
  · intro p hp
    by_cases hlt : p.1 < o
    · exact Or.inl (hstrictL p hp hlt)
    · exact Or.inr (hstrictR p hp hlt)
  · intro q hq
    exact erase_out_disj h.outDisj h.outPos ho hq

/-- Free with only the left neighbor adjacent: extend it in place. -/
theorem inv_free_shape_c {segs : List (Nat × Nat)} {b m o l ls lz : Nat}
    {out : List (Nat × Nat)}
    (h : AllocInv ⟨segs, b, m⟩ out) (ho : (o, l) ∈ out)
    (hlm : (ls, lz) ∈ segs) (hadj : ls + lz = o)
    (hstrictL : ∀ p ∈ segs, p.1 < o → p.1 ≠ ls → p.1 + p.2 < ls)
    (hstrictR : ∀ p ∈ segs, ¬ p.1 < o → o + l < p.1) :
    AllocInv ⟨mapInsert ls (lz + l) segs, b, m⟩ (out.erase (o, l)) := by
  rw [mapInsert_eq_mapInsert_mapRemove h.sep hlm]
  have hl : 0 < l := h.outPos _ ho
  refine inv_free_insert h ho (fun p hp => mem_mapRemove hp)
    (h.sep.sublist (mapRemove_sublist _ _)) ?_ (by omega) ?_ ?_
  · intro p hp
    obtain ⟨hpm, hpk⟩ := mem_mapRemove_pairwise h.sep hp
    by_cases hlt : p.1 < o
    · exact Or.inl (hstrictL p hpm hlt hpk)
    · right
      have := hstrictR p hpm hlt
      omega
  · have hob : o + l ≤ b := h.outBound _ ho
    omega
  · intro q hq
    have hd1 := erase_out_disj h.outDisj h.outPos ho hq
    have hd2 := h.outSeg q (List.mem_of_mem_erase hq) _ hlm
    have hq2 := h.outPos q (List.mem_of_mem_erase hq)
    simp only [SegDisj] at hd1 hd2 ⊢
    omega

/-- Free with only the right neighbor adjacent: remove it and insert the
union starting at `o`. -/
theorem inv_free_shape_b {segs : List (Nat × Nat)} {b m o l rs rz : Nat}
    {out : List (Nat × Nat)}
    (h : AllocInv ⟨segs, b, m⟩ out) (ho : (o, l) ∈ out)
    (hrm : (rs, rz) ∈ segs) (hadj : o + l = rs)
    (hstrictL : ∀ p ∈ segs, p.1 < o → p.1 + p.2 < o)
    (hstrictR : ∀ p ∈ segs, ¬ p.1 < o → p.1 ≠ rs → rs + rz < p.1) :
    AllocInv ⟨mapInsert o (l + rz) (mapRemove rs segs), b, m⟩
      (out.erase (o, l)) := by
  have hl : 0 < l := h.outPos _ ho
  refine inv_free_insert h ho (fun p hp => mem_mapRemove hp)
    (h.sep.sublist (mapRemove_sublist _ _)) ?_ (by omega) ?_ ?_
  · intro p hp
    obtain ⟨hpm, hpk⟩ := mem_mapRemove_pairwise h.sep hp
    by_cases hlt : p.1 < o
    · exact Or.inl (hstrictL p hpm hlt)
    · right
      have := hstrictR p hpm hlt hpk
      omega
  · have hsb : rs + rz ≤ b := h.segBound _ hrm
    omega
  · intro q hq
    have hd1 := erase_out_disj h.outDisj h.outPos ho hq
    have hd2 := h.outSeg q (List.mem_of_mem_erase hq) _ hrm
    have hq2 := h.outPos q (List.mem_of_mem_erase hq)
    simp only [SegDisj] at hd1 hd2 ⊢
    omega

/-- Free with both neighbors adjacent: remove both and insert the full
union starting at the left neighbor. -/
theorem inv_free_shape_a {segs : List (Nat × Nat)} {b m o l ls lz rs rz : Nat}
    {out : List (Nat × Nat)}
    (h : AllocInv ⟨segs, b, m⟩ out) (ho : (o, l) ∈ out)
    (hlm : (ls, lz) ∈ segs) (hrm : (rs, rz) ∈ segs)
    (hadjL : ls + lz = o) (hadjR : o + l = rs)
    (hstrictL : ∀ p ∈ segs, p.1 < o → p.1 ≠ ls → p.1 + p.2 < ls)
    (hstrictR : ∀ p ∈ segs, ¬ p.1 < o → p.1 ≠ rs → rs + rz < p.1) :
    AllocInv ⟨mapInsert ls (lz + l + rz) (mapRemove rs (mapRemove ls segs)),
      b, m⟩ (out.erase (o, l)) := by
  have hl : 0 < l := h.outPos _ ho
  have hpw1 : (mapRemove ls segs).Pairwise SegSep :=
    h.sep.sublist (mapRemove_sublist _ _)
  refine inv_free_insert h ho
    (fun p hp => mem_mapRemove (mem_mapRemove hp))
    (hpw1.sublist (mapRemove_sublist _ _)) ?_ (by omega) ?_ ?_
  · intro p hp
    obtain ⟨hp1, hpk2⟩ := mem_mapRemove_pairwise hpw1 hp
    obtain ⟨hpm, hpk1⟩ := mem_mapRemove_pairwise h.sep hp1
    by_cases hlt : p.1 < o
    · exact Or.inl (hstrictL p hpm hlt hpk1)
    · right
      have := hstrictR p hpm hlt hpk2
      omega
  · have hsb : rs + rz ≤ b := h.segBound _ hrm
    omega
  · intro q hq
    have hd1 := erase_out_disj h.outDisj h.outPos ho hq
    have hd2 := h.outSeg q (List.mem_of_mem_erase hq) _ hlm
    have hd3 := h.outSeg q (List.mem_of_mem_erase hq) _ hrm
    have hq2 := h.outPos q (List.mem_of_mem_erase hq)
    simp only [SegDisj] at hd1 hd2 hd3 ⊢
    omega

theorem free_below_end {segs : List (Nat × Nat)} {b m o l : Nat}
    {out : List (Nat × Nat)} (h : AllocInv ⟨segs, b, m⟩ out)
    (ho : (o, l) ∈ out) : ∀ p ∈ segs, p.1 < o → p.1 + p.2 ≤ o := by
  intro p hp hlt
  have hd := h.outSeg _ ho p hp
  have hl : 0 < l := h.outPos _ ho
  simp only [SegDisj] at hd
  omega

theorem free_above_start {segs : List (Nat × Nat)} {b m o l : Nat}
    {out : List (Nat × Nat)} (h : AllocInv ⟨segs, b, m⟩ out)
    (ho : (o, l) ∈ out) : ∀ p ∈ segs, ¬ p.1 < o → o + l ≤ p.1 := by
  intro p hp hge
  have hd := h.outSeg _ ho p hp
  have hpp : 0 < p.2 := h.segPos p hp
  simp only [SegDisj] at hd
  omega

theorem free_left_adj_is_last {segs : List (Nat × Nat)} {b m o l : Nat}
    {out : List (Nat × Nat)} (h : AllocInv ⟨segs, b, m⟩ out)
    (_ho : (o, l) ∈ out) {p : Nat × Nat} (hp : p ∈ segs)
    (he : p.1 + p.2 = o) : rangeBelowLast o segs = some p := by
  have hplt : p.1 < o := by
    have := h.segPos p hp
    omega
  obtain ⟨q, hq, hle⟩ := rangeBelowLast_max h.sep hp hplt
  obtain ⟨hqm, hqlt⟩ := rangeBelowLast_mem hq
  have hqp : q = p := by
    by_contra hne
    rcases sep_or_of_pairwise h.sep hqm hp hne with hs | hs <;>
      (simp only [SegSep] at hs; omega)
  rwa [hqp] at hq

theorem free_right_adj_is_first {segs : List (Nat × Nat)} {b m o l : Nat}
    {out : List (Nat × Nat)} (h : AllocInv ⟨segs, b, m⟩ out)
    (_ho : (o, l) ∈ out) {p : Nat × Nat} (hp : p ∈ segs)
    (he : p.1 = o + l) : rangeFromFirst (o + l) segs = some p := by
  obtain ⟨q, hq, hle⟩ := rangeFromFirst_min h.sep hp (le_of_eq he.symm)
  obtain ⟨hqm, hqge⟩ := rangeFromFirst_mem hq
  have hqp : q = p := by
    by_contra hne
    rcases sep_or_of_pairwise h.sep hqm hp hne with hs | hs <;>
      (simp only [SegSep] at hs; omega)
  rwa [hqp] at hq

theorem left_neighbor_strict {segs : List (Nat × Nat)} {b m o l ls lz : Nat}
    {out : List (Nat × Nat)} (h : AllocInv ⟨segs, b, m⟩ out)
    (_ho : (o, l) ∈ out) (hL : rangeBelowLast o segs = some (ls, lz)) :
    ∀ p ∈ segs, p.1 < o → p.1 ≠ ls → p.1 + p.2 < ls := by
  intro p hp hplt hpk
  obtain ⟨hlm, hllt⟩ := rangeBelowLast_mem hL
  obtain ⟨q, hq, hle⟩ := rangeBelowLast_max h.sep hp hplt
  rw [hL] at hq
  obtain rfl : (ls, lz) = q := Option.some.inj hq
  have hple : p.1 < ls := lt_of_le_of_ne hle hpk
  have hne : p ≠ (ls, lz) := fun he => hpk (congrArg Prod.fst he)
  rcases sep_or_of_pairwise h.sep hp hlm hne with hs | hs <;>
    (simp only [SegSep] at hs; omega)

theorem left_nonadj_strict {segs : List (Nat × Nat)} {b m o l ls lz : Nat}
    {out : List (Nat × Nat)} (h : AllocInv ⟨segs, b, m⟩ out)
    (ho : (o, l) ∈ out) (hL : rangeBelowLast o segs = some (ls, lz))
    (hna : ¬ ls + lz = o) : ∀ p ∈ segs, p.1 < o → p.1 + p.2 < o := by
  intro p hp hplt
  rcases lt_or_eq_of_le (free_below_end h ho p hp hplt) with h' | h'
  · exact h'
  · exfalso
    have hadj := free_left_adj_is_last h ho hp h'
    rw [hL] at hadj
    have : (ls, lz) = p := Option.some.inj hadj
    cases this
    exact hna h'

theorem right_neighbor_strict {segs : List (Nat × Nat)} {b m o l rs rz : Nat}
    {out : List (Nat × Nat)} (h : AllocInv ⟨segs, b, m⟩ out)
    (ho : (o, l) ∈ out) (hR : rangeFromFirst (o + l) segs = some (rs, rz)) :
    ∀ p ∈ segs, ¬ p.1 < o → p.1 ≠ rs → rs + rz < p.1 := by
  intro p hp hge hpk
  obtain ⟨hrm, hrge⟩ := rangeFromFirst_mem hR
  have h1 : o + l ≤ p.1 := free_above_start h ho p hp hge
  obtain ⟨q, hq, hle⟩ := rangeFromFirst_min h.sep hp h1
  rw [hR] at hq
  obtain rfl : (rs, rz) = q := Option.some.inj hq
  have hple : rs < p.1 := lt_of_le_of_ne hle (Ne.symm hpk)
  have hne : p ≠ (rs, rz) := fun he => hpk (congrArg Prod.fst he)
  rcases sep_or_of_pairwise h.sep hp hrm hne with hs | hs <;>
    (simp only [SegSep] at hs; omega)

theorem right_nonadj_strict {segs : List (Nat × Nat)} {b m o l rs rz : Nat}
    {out : List (Nat × Nat)} (h : AllocInv ⟨segs, b, m⟩ out)
    (ho : (o, l) ∈ out) (hR : rangeFromFirst (o + l) segs = some (rs, rz))
    (hna : ¬ o + l = rs) : ∀ p ∈ segs, ¬ p.1 < o → o + l < p.1 := by
  intro p hp hge
  rcases lt_or_eq_of_le (free_above_start h ho p hp hge) with h' | h'
  · exact h'
  · exfalso
    have hadj := free_right_adj_is_first h ho hp h'.symm
    rw [hR] at hadj
    have : (rs, rz) = p := Option.some.inj hadj
    cases this
    exact hna h'

/-- Freeing a block that is exactly one outstanding allocated region never
panics and preserves the invariant. -/
theorem inv_free {a : Allocator} {out : List (Nat × Nat)} {o l : Nat}
    (h : AllocInv a out) (ho : (o, l) ∈ out) :
    ∃ segs', freeSegments a.segments o l = some segs' ∧
      AllocInv ⟨segs', a.boundary, a.memSize⟩ (out.erase (o, l)) := by
  obtain ⟨segs, b, m⟩ := a
  show ∃ segs', freeSegments segs o l = some segs' ∧
    AllocInv ⟨segs', b, m⟩ (out.erase (o, l))
  have hl : 0 < l := h.outPos _ ho
  simp only [freeSegments]
  cases hL : rangeBelowLast o segs with
  | none =>
    have hnoleft : ∀ p ∈ segs, ¬ p.1 < o := rangeBelowLast_none hL
    cases hR : rangeFromFirst (o + l) segs with
    | none =>
      refine ⟨_, rfl, ?_⟩
      exact inv_free_shape_d h ho
        (fun p hp hlt => absurd hlt (hnoleft p hp))
        (fun p hp hge =>
          absurd (rangeFromFirst_none hR p hp)
            (not_lt.mpr (free_above_start h ho p hp hge)))
    | some pr =>
      obtain ⟨rs, rz⟩ := pr
      obtain ⟨hrm, hrge⟩ := rangeFromFirst_mem hR
      dsimp only
      by_cases hradj : o + l = rs
      · rw [if_pos hradj, if_pos (le_of_eq hradj), removeChecked_of_mem hrm]
        refine ⟨_, rfl, ?_⟩
        exact inv_free_shape_b h ho hrm hradj
          (fun p hp hlt => absurd hlt (hnoleft p hp))
          (right_neighbor_strict h ho hR)
      · rw [if_neg hradj]
        refine ⟨_, rfl, ?_⟩
        exact inv_free_shape_d h ho
          (fun p hp hlt => absurd hlt (hnoleft p hp))
          (right_nonadj_strict h ho hR hradj)
  | some pl =>
    obtain ⟨ls, lz⟩ := pl
    obtain ⟨hlm, hllt⟩ := rangeBelowLast_mem hL
    have hlend : ls + lz ≤ o := free_below_end h ho _ hlm hllt
    cases hR : rangeFromFirst (o + l) segs with
    | none =>
      dsimp only
      have hstrictRv : ∀ p ∈ segs, ¬ p.1 < o → o + l < p.1 := fun p hp hge =>
        absurd (rangeFromFirst_none hR p hp)
          (not_lt.mpr (free_above_start h ho p hp hge))
      by_cases hladj : ls + lz = o
      · rw [if_pos hladj, insertChecked_of_mem (lz + l) hlm]
        refine ⟨_, rfl, ?_⟩
        exact inv_free_shape_c h ho hlm hladj
          (left_neighbor_strict h ho hL) hstrictRv
      · rw [if_neg hladj]
        refine ⟨_, rfl, ?_⟩
        exact inv_free_shape_d h ho
          (left_nonadj_strict h ho hL hladj) hstrictRv
    | some pr =>
      obtain ⟨rs, rz⟩ := pr
      obtain ⟨hrm, hrge⟩ := rangeFromFirst_mem hR
      dsimp only
      by_cases hba : ls + lz = o ∧ o + l = rs
      · rw [if_pos hba, if_pos (le_of_eq hba.2), removeChecked_of_mem hlm]
        have hrm1 : (rs, rz) ∈ mapRemove ls segs :=
          mem_mapRemove_of_ne hrm (show rs ≠ ls by omega)
        dsimp only
        rw [removeChecked_of_mem hrm1]
        refine ⟨_, rfl, ?_⟩
        exact inv_free_shape_a h ho hlm hrm hba.1 hba.2
          (left_neighbor_strict h ho hL) (right_neighbor_strict h ho hR)
      · rw [if_neg hba]
        by_cases hradj : o + l = rs
        · have hladj : ¬ ls + lz = o := fun he => hba ⟨he, hradj⟩
          rw [if_pos hradj, if_pos (le_of_eq hradj), removeChecked_of_mem hrm]
          refine ⟨_, rfl, ?_⟩
          exact inv_free_shape_b h ho hrm hradj
            (left_nonadj_strict h ho hL hladj)
            (right_neighbor_strict h ho hR)
        · rw [if_neg hradj]
          by_cases hladj : ls + lz = o
          · rw [if_pos hladj, insertChecked_of_mem (lz + l) hlm]
            refine ⟨_, rfl, ?_⟩
            exact inv_free_shape_c h ho hlm hladj
              (left_neighbor_strict h ho hL)
              (right_nonadj_strict h ho hR hradj)
          · rw [if_neg hladj]
            refine ⟨_, rfl, ?_⟩
            exact inv_free_shape_d h ho
              (left_nonadj_strict h ho hL hladj)
              (right_nonadj_strict h ho hR hradj)

/-! ## Running histories -/

theorem inv_fresh (m0 : Nat) : AllocInv ⟨[], 16, m0⟩ [] := by
  refine ⟨?_, ?_, ?_, ?_, ?_, ?_, ?_⟩ <;> simp

theorem inv_run : ∀ {ops : List AllocOp} {a : Allocator}
    {out : List (Nat × Nat)} {a' : Allocator} {out' : List (Nat × Nat)},
    AllocInv a out → runOps a out ops = some (a', out') → AllocInv a' out' := by
  intro ops
  induction ops with
  | nil =>
    intro a out a' out' h hr
    simp only [runOps, Option.some.injEq, Prod.mk.injEq] at hr
    obtain ⟨rfl, rfl⟩ := hr
    exact h
  | cons op rest ih =>
    intro a out a' out' h hr
    cases op with
    | alloc n =>
      simp only [runOps] at hr
      exact ih (inv_alloc h) hr
    | free o l =>
      simp only [runOps] at hr
      by_cases hmem : (o, l) ∈ out
      · rw [if_pos hmem] at hr
        obtain ⟨segs', hfs, hinv⟩ := inv_free h hmem
        have hfree : a.free o l = some ⟨segs', a.boundary, a.memSize⟩ := by
          simp [Allocator.free, hfs]
        rw [hfree] at hr
        exact ih hinv hr
      · rw [if_neg hmem] at hr
        exact absurd hr (by simp)

/-! ## Totality of `free` -/

theorem freeSegments_total (segs : List (Nat × Nat)) (o l : Nat) :
    ∃ segs', freeSegments segs o l = some segs' := by
  simp only [freeSegments]
  cases hL : rangeBelowLast o segs with
  | none =>
    cases hR : rangeFromFirst (o + l) segs with
    | none => exact ⟨_, rfl⟩
    | some pr =>
      obtain ⟨rs, rz⟩ := pr
      obtain ⟨hrm, hrge⟩ := rangeFromFirst_mem hR
      dsimp only
      by_cases hradj : o + l = rs
      · rw [if_pos hradj, if_pos (le_of_eq hradj), removeChecked_of_mem hrm]
        exact ⟨_, rfl⟩
      · rw [if_neg hradj]
        exact ⟨_, rfl⟩
  | some pl =>
    obtain ⟨ls, lz⟩ := pl
    obtain ⟨hlm, hllt⟩ := rangeBelowLast_mem hL
    have hllt' : ls < o := hllt
    cases hR : rangeFromFirst (o + l) segs with
    | none =>
      dsimp only
      by_cases hladj : ls + lz = o
      · rw [if_pos hladj, insertChecked_of_mem (lz + l) hlm]
        exact ⟨_, rfl⟩
      · rw [if_neg hladj]
        exact ⟨_, rfl⟩
    | some pr =>
      obtain ⟨rs, rz⟩ := pr
      obtain ⟨hrm, hrge⟩ := rangeFromFirst_mem hR
      have hrge' : o + l ≤ rs := hrge
      dsimp only
      by_cases hba : ls + lz = o ∧ o + l = rs
      · rw [if_pos hba, if_pos (le_of_eq hba.2), removeChecked_of_mem hlm]
        dsimp only
        have hrm1 : (rs, rz) ∈ mapRemove ls segs :=
          mem_mapRemove_of_ne hrm (show rs ≠ ls by omega)
        rw [removeChecked_of_mem hrm1]
        exact ⟨_, rfl⟩
      · rw [if_neg hba]
        by_cases hradj : o + l = rs
        · rw [if_pos hradj, if_pos (le_of_eq hradj), removeChecked_of_mem hrm]
          exact ⟨_, rfl⟩
        · rw [if_neg hradj]
          by_cases hladj : ls + lz = o
          · rw [if_pos hladj, insertChecked_of_mem (lz + l) hlm]
            exact ⟨_, rfl⟩
          · rw [if_neg hladj]
            exact ⟨_, rfl⟩

/-! ## Claim theorems for the segment allocator -/

/-- C2: for every history of `alloc`/`free` calls from a fresh allocator in
which each `free` gives back exactly one previously allocated, not yet
freed block, the stored free segments are ordered by start offset,
non-overlapping, and no two distinct stored segments are adjacent
(`left.start + left.length` never equals `right.start`). -/
theorem claim2_free_list_invariant (m0 : Nat) (ops : List AllocOp)
    (a : Allocator) (out : List (Nat × Nat))
    (hrun : runOps ⟨[], 16, m0⟩ [] ops = some (a, out)) :
    a.segments.Pairwise (fun lft rgt => lft.1 + lft.2 < rgt.1) ∧
      ∀ p ∈ a.segments, ∀ q ∈ a.segments, p ≠ q → p.1 + p.2 ≠ q.1 := by
  have hinv := inv_run (inv_fresh m0) hrun
  refine ⟨hinv.sep, ?_⟩
  intro p hp q hq hne
  rcases sep_or_of_pairwise hinv.sep hp hq hne with hs | hs <;>
    (simp only [SegSep] at hs; omega)

theorem claim2_free_list_invariant_witness :
    (⟨[(16, 16)], 32, 64⟩ : Allocator).segments.Pairwise
        (fun lft rgt => lft.1 + lft.2 < rgt.1) ∧
      ∀ p ∈ (⟨[(16, 16)], 32, 64⟩ : Allocator).segments,
        ∀ q ∈ (⟨[(16, 16)], 32, 64⟩ : Allocator).segments,
          p ≠ q → p.1 + p.2 ≠ q.1 :=
  claim2_free_list_invariant 64
    [AllocOp.alloc 8, AllocOp.alloc 4, AllocOp.alloc 4,
      AllocOp.free 24 4, AllocOp.free 16 8, AllocOp.free 28 4]
    ⟨[(16, 16)], 32, 64⟩ [] (by decide)

/-- C5: `alloc(n)` considers exactly the free segments of length at least
`n` among those scanned (the scan stops at the first exact-size match) and
picks one of minimal length; on `{(100,4),(200,10),(300,4)}`, `alloc 4`
returns 100, the first exact match, and not 200. -/
theorem claim5_best_fit :
    (∀ (segs : List (Nat × Nat)) (n size start : Nat),
        (buildCandidates n [] segs).head? = some (size, start) →
        (start, size) ∈ scannedSegs n segs ∧ n ≤ size ∧
          ∀ p ∈ scannedSegs n segs, n ≤ p.2 → size ≤ p.2) ∧
    (Allocator.alloc ⟨[(100, 4), (200, 10), (300, 4)], 400, 1000⟩ 4).offset
        = 100 ∧
    (Allocator.alloc ⟨[(100, 4), (200, 10), (300, 4)], 400, 1000⟩ 4).offset
        ≠ 200 :=
  ⟨fun _ _ _ _ h => candidates_spec h, by decide, by decide⟩

theorem claim5_best_fit_witness :
    (100, 4) ∈ scannedSegs 4 [(100, 4), (200, 10), (300, 4)] ∧ 4 ≤ 4 ∧
      ∀ p ∈ scannedSegs 4 [(100, 4), (200, 10), (300, 4)], 4 ≤ p.2 →
        4 ≤ p.2 :=
  claim5_best_fit.1 [(100, 4), (200, 10), (300, 4)] 4 4 100 (by decide)

/-- C1 counterexample: `alloc 100` on a fresh-page boundary issues one
`grow(100)` call, which grows by `100 >> 16 = 0` pages, so afterwards
`boundary > current_size()`: the grow is not sized to cover `n` and the
invariant is not restored for non-page-aligned `n`. -/
theorem claim1_counterexample :
    (Allocator.alloc ⟨[], 65530, 65536⟩ 100).growCalls = [100] ∧
    (Allocator.alloc ⟨[], 65530, 65536⟩ 100).state.memSize = 65536 ∧
    (Allocator.alloc ⟨[], 65530, 65536⟩ 100).state.boundary = 65630 ∧
    ¬ (Allocator.alloc ⟨[], 65530, 65536⟩ 100).state.boundary ≤
        (Allocator.alloc ⟨[], 65530, 65536⟩ 100).state.memSize := by
  decide

/-- C1 amended: when no free segment fits and the new boundary reaches the
current memory size, exactly one `grow` call is issued, with argument `n`;
it grows by `n >> 16` pages, i.e. `n / 65536 * 65536` bytes (rounded
down); `boundary <= current_size()` is restored when `n` is a multiple of
the 65536-byte page size (given it held before the call), but not for
general `n`. -/
theorem claim1_grow (a : Allocator) (n : Nat)
    (hfit : buildCandidates n [] a.segments = [])
    (hgrow : a.memSize ≤ a.boundary + n) :
    (a.alloc n).growCalls = [n] ∧
    (a.alloc n).state.memSize = a.memSize + n / 65536 * 65536 ∧
    (65536 ∣ n → a.boundary ≤ a.memSize →
      (a.alloc n).state.boundary ≤ (a.alloc n).state.memSize) := by
  have hh : (buildCandidates n [] a.segments).head? = none := by
    rw [hfit]; rfl
  rw [Allocator.alloc_nofit_grow hh hgrow]
  refine ⟨rfl, ?_, ?_⟩
  · norm_num [Nat.shiftRight_eq_div_pow]
  · intro hdvd hb
    have h2 : Nat.shiftRight n 16 = n / 65536 := Nat.shiftRight_eq_div_pow n 16
    have heq : Nat.shiftRight n 16 * 65536 = n := by
      rw [h2]
      exact Nat.div_mul_cancel hdvd
    simp only
    omega

theorem claim1_grow_witness :
    (Allocator.alloc ⟨[], 16, 65536⟩ 131072).growCalls = [131072] ∧
    (Allocator.alloc ⟨[], 16, 65536⟩ 131072).state.memSize
        = 65536 + 131072 / 65536 * 65536 ∧
    (Allocator.alloc ⟨[], 16, 65536⟩ 131072).state.boundary ≤
        (Allocator.alloc ⟨[], 16, 65536⟩ 131072).state.memSize :=
  ⟨(claim1_grow ⟨[], 16, 65536⟩ 131072 rfl (by decide)).1,
    (claim1_grow ⟨[], 16, 65536⟩ 131072 rfl (by decide)).2.1,
    (claim1_grow ⟨[], 16, 65536⟩ 131072 rfl (by decide)).2.2
      (by decide) (by decide)⟩

/-- C7 counterexample: a double free returns normally instead of aborting.
After freeing `(16, 8)` the free list is `[(16, 8)]`; calling
`free(16, 8)` again — an invariant violation — completes without any
panic and leaves the same free list. -/
theorem claim7_counterexample :
    freeSegments [(16, 8)] 16 8 = some [(16, 8)] := by decide

/-- C7 amended: `free` never panics: for every segments map and every
`(offset, length)` argument — valid or not — all internal `expect` and
`assert!` guards pass and the call returns normally. Invalid frees
silently corrupt the free list rather than aborting. -/
theorem claim7_free_never_panics (segs : List (Nat × Nat)) (o l : Nat) :
    ∃ segs', freeSegments segs o l = some segs' :=
  freeSegments_total segs o l

/-- C10: on a non-empty free list with positive segment lengths, `alloc 0`
returns the start of a smallest free segment, changes nothing in the
allocator state, performs no grow call, and a second `alloc 0` returns
the same offset. -/
theorem claim10_alloc_zero (a : Allocator) (hne : a.segments ≠ [])
    (hpos : ∀ p ∈ a.segments, 0 < p.2)
    (hsorted : a.segments.Pairwise SegSep) :
    (∃ sz, ((a.alloc 0).offset, sz) ∈ a.segments ∧
      ∀ p ∈ a.segments, sz ≤ p.2) ∧
    (a.alloc 0).state = a ∧ (a.alloc 0).growCalls = [] ∧
    ((a.alloc 0).state.alloc 0).offset = (a.alloc 0).offset := by
  have hscan : scannedSegs 0 a.segments = a.segments :=
    scannedSegs_eq_self fun p hp => by have := hpos p hp; omega
  obtain ⟨p0, hp0⟩ : ∃ p0, p0 ∈ a.segments := by
    cases hseg : a.segments with
    | nil => exact absurd hseg hne
    | cons x rest => exact ⟨x, List.mem_cons_self _ _⟩
  have hp0' : p0 ∈ scannedSegs 0 a.segments := by rw [hscan]; exact hp0
  obtain ⟨v, hv⟩ := buildCandidates_complete hp0' (Nat.zero_le _) []
  obtain ⟨q, hq⟩ : ∃ q, (buildCandidates 0 [] a.segments).head? = some q := by
    cases hc : buildCandidates 0 [] a.segments with
    | nil => rw [hc] at hv; simp at hv
    | cons x rest => exact ⟨x, rfl⟩
  obtain ⟨size, start⟩ := q
  obtain ⟨hmem, -, hmin⟩ := candidates_spec hq
  rw [hscan] at hmem hmin
  have hszpos : 0 < size := hpos _ hmem
  have halloc := Allocator.alloc_found hq
  rw [if_pos hszpos] at halloc
  have h0 : mapInsert (start + 0) (size - 0) (mapRemove start a.segments)
      = a.segments := by
    simpa using mapInsert_mapRemove_eq hsorted hmem
  have hstate : (a.alloc 0).state = a := by
    rw [halloc, h0]
  refine ⟨⟨size, ?_, fun p hp => hmin p hp (Nat.zero_le _)⟩, hstate, ?_, ?_⟩
  · rw [halloc]
    exact hmem
  · rw [halloc]
  · rw [hstate]

theorem claim10_alloc_zero_witness :
    (∃ sz, ((Allocator.alloc ⟨[(20, 4), (30, 2)], 40, 100⟩ 0).offset, sz)
        ∈ (⟨[(20, 4), (30, 2)], 40, 100⟩ : Allocator).segments ∧
      ∀ p ∈ (⟨[(20, 4), (30, 2)], 40, 100⟩ : Allocator).segments,
        sz ≤ p.2) ∧
    (Allocator.alloc ⟨[(20, 4), (30, 2)], 40, 100⟩ 0).state
        = ⟨[(20, 4), (30, 2)], 40, 100⟩ ∧
    (Allocator.alloc ⟨[(20, 4), (30, 2)], 40, 100⟩ 0).growCalls = [] ∧
    ((Allocator.alloc ⟨[(20, 4), (30, 2)], 40, 100⟩ 0).state.alloc 0).offset
        = (Allocator.alloc ⟨[(20, 4), (30, 2)], 40, 100⟩ 0).offset :=
  claim10_alloc_zero ⟨[(20, 4), (30, 2)], 40, 100⟩ (by decide) (by decide)
    (by decide)

/-! ## Stable-memory read/write lemmas -/

theorem toBeBytes_length (n : Nat) : (toBeBytes n).length = 8 := rfl

theorem fromBeBytes_toBeBytes {n : Nat} (h : n < 18446744073709551616) :
    fromBeBytes (toBeBytes n) = n := by
  simp only [toBeBytes, fromBeBytes, List.foldl]
  omega

theorem memRead_memWrite_eq (m : Mem) (off : Nat) (data : List Nat) :
    memRead (memWrite m off data) off data.length = data := by
  apply List.ext_getElem
  · simp [memRead]
  · intro i h1 h2
    simp only [memRead, memWrite, List.getElem_map, List.getElem_range]
    rw [if_pos ⟨by omega, by omega⟩]
    have hidx : off + i - off = i := by omega
    rw [hidx]
    exact List.getD_eq_getElem data 0 h2

theorem memRead_memWrite_disjoint (m : Mem) (off : Nat) (data : List Nat)
    (off2 len2 : Nat)
    (hdisj : off2 + len2 ≤ off ∨ off + data.length ≤ off2) :
    memRead (memWrite m off data) off2 len2 = memRead m off2 len2 := by
  simp only [memRead, memWrite]
  apply List.map_congr_left
  intro i hi
  have hilt : i < len2 := List.mem_range.mp hi
  rw [if_neg (by omega)]

theorem heap_to_stable_eq {α : Type} (ser : RootState α → List Nat)
    (st : RootState α) (m : Mem) :
    heap_to_stable ser st m =
      memWrite (memWrite (memWrite
        { m with size := (persistAlloc ser st m).state.memSize }
        (persistAlloc ser st m).offset (ser st))
        0 (toBeBytes (persistAlloc ser st m).offset))
        8 (toBeBytes (ser st).length) := rfl

theorem alloc_nofit_offset {a : Allocator} {n : Nat}
    (h : (buildCandidates n [] a.segments).head? = none) :
    (a.alloc n).offset = a.boundary := by
  by_cases hg : a.memSize ≤ a.boundary + n
  · rw [Allocator.alloc_nofit_grow h hg]
  · rw [Allocator.alloc_nofit_nogrow h hg]

theorem persistAlloc_offset_cases {α : Type} (ser : RootState α → List Nat)
    (st : RootState α) (m : Mem) :
    (∃ p ∈ st.segments, (persistAlloc ser st m).offset = p.1) ∨
      (persistAlloc ser st m).offset = st.boundary := by
  unfold persistAlloc
  cases hc : (buildCandidates (ser st).length [] st.segments).head? with
  | some q =>
    obtain ⟨size, start⟩ := q
    obtain ⟨hscan, -, -⟩ := candidates_spec hc
    left
    refine ⟨(start, size), scannedSegs_subset hscan, ?_⟩
    rw [Allocator.alloc_found hc]
  | none =>
    right
    exact alloc_nofit_offset hc

theorem persistAlloc_offset_ge {α : Type} {ser : RootState α → List Nat}
    {st : RootState α} {m : Mem}
    (hseg : ∀ p ∈ st.segments, 16 ≤ p.1) (hb : 16 ≤ st.boundary) :
    16 ≤ (persistAlloc ser st m).offset := by
  rcases persistAlloc_offset_cases ser st m with ⟨p, hp, he⟩ | he
  · rw [he]; exact hseg p hp
  · rw [he]; exact hb

theorem persistAlloc_offset_lt {α : Type} {ser : RootState α → List Nat}
    {st : RootState α} {m : Mem}
    (hseg : ∀ p ∈ st.segments, p.1 < 18446744073709551616)
    (hb : st.boundary < 18446744073709551616) :
    (persistAlloc ser st m).offset < 18446744073709551616 := by
  rcases persistAlloc_offset_cases ser st m with ⟨p, hp, he⟩ | he
  · rw [he]; exact hseg p hp
  · rw [he]; exact hb

theorem persistAlloc_offset_indep {α : Type} (ser : RootState α → List Nat)
    (st : RootState α) (m m' : Mem) :
    (persistAlloc ser st m').offset = (persistAlloc ser st m).offset := by
  unfold persistAlloc
  cases hc : (buildCandidates (ser st).length [] st.segments).head? with
  | some q =>
    obtain ⟨size, start⟩ := q
    rw [Allocator.alloc_found hc, Allocator.alloc_found hc]
  | none =>
    rw [alloc_nofit_offset hc, alloc_nofit_offset hc]

/-! ## Claim theorems for the root persistence layer -/

/-- C3: persisting a root object and restoring it yields the object back,
for any state whose embedded allocator data lies in the allocator-managed
region (offsets at least 16 and representable as `u64`), under the
hypothesis that deserialization is a left inverse of serialization. This
includes states with non-empty free segment lists. -/
theorem claim3_round_trip {α : Type} (ser : RootState α → List Nat)
    (de : List Nat → RootState α) (st : RootState α) (m : Mem)
    (hinv : de (ser st) = st)
    (hseg : ∀ p ∈ st.segments, 16 ≤ p.1) (hb : 16 ≤ st.boundary)
    (hseg2 : ∀ p ∈ st.segments, p.1 < 18446744073709551616)
    (hb2 : st.boundary < 18446744073709551616)
    (hlen : (ser st).length < 18446744073709551616) :
    stable_to_heap de (heap_to_stable ser st m) = st := by
  have hoff16 : 16 ≤ (persistAlloc ser st m).offset :=
    persistAlloc_offset_ge hseg hb
  have hoff64 : (persistAlloc ser st m).offset < 18446744073709551616 :=
    persistAlloc_offset_lt hseg2 hb2
  have hsplit := heap_to_stable_eq ser st m
  have hr0 : memRead (heap_to_stable ser st m) 0 8 =
      toBeBytes (persistAlloc ser st m).offset := by
    rw [hsplit]
    rw [memRead_memWrite_disjoint _ 8 _ 0 8 (Or.inl (by omega))]
    have := memRead_memWrite_eq
      (memWrite { m with size := (persistAlloc ser st m).state.memSize }
        (persistAlloc ser st m).offset (ser st))
      0 (toBeBytes (persistAlloc ser st m).offset)
    simpa [toBeBytes_length] using this
  have hr8 : memRead (heap_to_stable ser st m) 8 8 =
      toBeBytes (ser st).length := by
    rw [hsplit]
    have := memRead_memWrite_eq
      (memWrite (memWrite { m with size := (persistAlloc ser st m).state.memSize }
        (persistAlloc ser st m).offset (ser st))
        0 (toBeBytes (persistAlloc ser st m).offset))
      8 (toBeBytes (ser st).length)
    simpa [toBeBytes_length] using this
  have h1 : (heap_address (heap_to_stable ser st m)).1 =
      (persistAlloc ser st m).offset := by
    simp only [heap_address, hr0]
    exact fromBeBytes_toBeBytes hoff64
  have h2 : (heap_address (heap_to_stable ser st m)).2 = (ser st).length := by
    simp only [heap_address, hr8]
    exact fromBeBytes_toBeBytes hlen
  have hrobj : memRead (heap_to_stable ser st m)
      (persistAlloc ser st m).offset (ser st).length = ser st := by
    rw [hsplit]
    rw [memRead_memWrite_disjoint _ 8 _ _ _
      (Or.inr (by simp [toBeBytes_length]; omega))]
    rw [memRead_memWrite_disjoint _ 0 _ _ _
      (Or.inr (by simp [toBeBytes_length]; omega))]
    exact memRead_memWrite_eq _ _ _
  simp only [stable_to_heap, Storage.read, h1, h2]
  rw [hrobj]
  exact hinv

theorem claim3_round_trip_witness :
    stable_to_heap (fun bs => (⟨(), [], bs.getD 0 0⟩ : RootState Unit))
      (heap_to_stable (fun s => [s.boundary]) (⟨(), [], 16⟩ : RootState Unit)
        ⟨fun _ => 0, 0⟩) =
      (⟨(), [], 16⟩ : RootState Unit) :=
  claim3_round_trip (fun s => [s.boundary])
    (fun bs => (⟨(), [], bs.getD 0 0⟩ : RootState Unit))
    ⟨(), [], 16⟩ ⟨fun _ => 0, 0⟩ rfl (by simp) (by decide) (by simp)
    (by decide) (by decide)

/-- C6: in every execution of `heap_to_stable`, the write trace is exactly
the serialized object at the allocated offset followed by the two header
writes at bytes 0 and 8; the object write is at offset at least 16, and
every event that touches the header region `[0, 16)` occurs strictly
after the object write (index 0). -/
theorem claim6_object_before_header {α : Type} (ser : RootState α → List Nat)
    (st : RootState α) (m : Mem)
    (hseg : ∀ p ∈ st.segments, 16 ≤ p.1) (hb : 16 ≤ st.boundary) :
    heapToStableTrace ser st m =
      [((persistAlloc ser st m).offset, ser st),
        (0, toBeBytes (persistAlloc ser st m).offset),
        (8, toBeBytes (ser st).length)] ∧
    16 ≤ (persistAlloc ser st m).offset ∧
    ∀ (i : Nat) (hi : i < (heapToStableTrace ser st m).length),
      ((heapToStableTrace ser st m).get ⟨i, hi⟩).1 < 16 → 0 < i := by
  have hoff : 16 ≤ (persistAlloc ser st m).offset :=
    persistAlloc_offset_ge hseg hb
  refine ⟨rfl, hoff, ?_⟩
  intro i hi hlt
  by_contra h0
  have hi0 : i = 0 := by omega
  subst hi0
  have hlt' : (persistAlloc ser st m).offset < 16 := hlt
  omega

theorem claim6_object_before_header_witness :
    heapToStableTrace (fun _ => [7, 7, 7]) (⟨(), [], 16⟩ : RootState Unit)
        ⟨fun _ => 0, 0⟩ =
      [((persistAlloc (fun _ => [7, 7, 7]) (⟨(), [], 16⟩ : RootState Unit)
          ⟨fun _ => 0, 0⟩).offset, [7, 7, 7]),
        (0, toBeBytes (persistAlloc (fun _ => [7, 7, 7])
          (⟨(), [], 16⟩ : RootState Unit) ⟨fun _ => 0, 0⟩).offset),
        (8, toBeBytes 3)] ∧
    16 ≤ (persistAlloc (fun _ => [7, 7, 7]) (⟨(), [], 16⟩ : RootState Unit)
        ⟨fun _ => 0, 0⟩).offset ∧
    ∀ (i : Nat) (hi : i < (heapToStableTrace (fun _ => [7, 7, 7])
        (⟨(), [], 16⟩ : RootState Unit) ⟨fun _ => 0, 0⟩).length),
      ((heapToStableTrace (fun _ => [7, 7, 7])
        (⟨(), [], 16⟩ : RootState Unit) ⟨fun _ => 0, 0⟩).get ⟨i, hi⟩).1 < 16 →
        0 < i :=
  claim6_object_before_header (fun _ => [7, 7, 7]) ⟨(), [], 16⟩
    ⟨fun _ => 0, 0⟩ (by simp) (by decide)

/-- C9: `heap_to_stable` allocates from a temporary copy of the state's
allocator, so its write trace — in particular the allocation offset — does
not depend on the memory it runs over: two successive calls on an equal
in-heap state produce identical traces, and the second call's first event
overwrites the first snapshot's bytes at the same offset before the two
header writes. -/
theorem claim9_persist_uses_copy {α : Type} (ser : RootState α → List Nat)
    (st : RootState α) (m m' : Mem) :
    heapToStableTrace ser st m' = heapToStableTrace ser st m ∧
    (persistAlloc ser st m').offset = (persistAlloc ser st m).offset ∧
    heapToStableTrace ser st (heap_to_stable ser st m) =
      [((persistAlloc ser st m).offset, ser st),
        (0, toBeBytes (persistAlloc ser st m).offset),
        (8, toBeBytes (ser st).length)] := by
  have hoff := persistAlloc_offset_indep ser st m m'
  have hoff2 := persistAlloc_offset_indep ser st m (heap_to_stable ser st m)
  exact ⟨by simp only [heapToStableTrace, hoff], hoff,
    by simp only [heapToStableTrace, hoff2]⟩

/-! ## Claim theorems for the shard-backed blob store -/

theorem find?_mapInsert_first {buckets : List (Nat × Nat)}
    {f : Nat × Nat → Bool} {id v : Nat}
    (hnone : ∀ p ∈ buckets, f p = false) (hid : f (id, v) = true) :
    (mapInsert id v buckets).find? f = some (id, v) := by
  induction buckets with
  | nil => simp [mapInsert, List.find?, hid]
  | cons p rest ih =>
    have hp := hnone p (List.mem_cons_self _ _)
    by_cases h1 : id < p.1
    · simp [mapInsert, if_pos h1, List.find?, hid]
    · by_cases h2 : id = p.1
      · simp [mapInsert, if_neg h1, if_pos h2, List.find?, hid]
      · simp only [mapInsert, if_neg h1, if_neg h2, List.find?, hp]
        exact ih fun q hq => hnone q (List.mem_cons_of_mem _ hq)

/-- C4 counterexample: with bucket records `{(A = 0, used = 90),
(B = 1, used = 10)}` in iteration order and capacity 100, a write
selects shard A — whose used size 90 is already below the capacity — and
not shard B as the claim states; the blob size plays no role. -/
theorem claim4_counterexample :
    (allocate_space [(0, 90), (1, 10)] 100 (Except.ok 99) (Except.ok ())).1
        = Except.ok 0 ∧
    (allocate_space [(0, 90), (1, 10)] 100 (Except.ok 99) (Except.ok ())).1
        ≠ Except.ok 1 ∧
    (allocate_space [(0, 90), (1, 10)] 100 (Except.ok 99) (Except.ok ())).2
        = [(0, 90), (1, 10)] := by
  refine ⟨rfl, ?_, rfl⟩
  intro h
  simp [allocate_space, List.find?] at h

/-- C4 amended: `allocate_space` selects the first shard in iteration
order whose `used_bytes` is below the capacity — here shard A, since
`90 < 100` — regardless of the size of the blob to be written; with
`{(A, 90), (B, 10)}` and capacity 100 it returns A, not B. -/
theorem claim4_first_fit :
    (∀ (buckets : List (Nat × Nat)) (cap id used : Nat)
        (nc : Except String Nat) (ir : Except String Unit),
        buckets.find? (fun p => p.2 < cap) = some (id, used) →
        allocate_space buckets cap nc ir = (Except.ok id, buckets)) ∧
    (allocate_space [(0, 90), (1, 10)] 100 (Except.ok 99) (Except.ok ())).1
        = Except.ok 0 := by
  refine ⟨?_, rfl⟩
  intro buckets cap id used nc ir hfind
  simp [allocate_space, hfind]

theorem claim4_first_fit_witness :
    allocate_space [(0, 90), (1, 10)] 100 (Except.ok 99) (Except.ok ())
        = (Except.ok 0, [(0, 90), (1, 10)]) :=
  claim4_first_fit.1 [(0, 90), (1, 10)] 100 0 90 (Except.ok 99)
    (Except.ok ()) (by rfl)

/-- C8: when no existing shard has spare capacity, a new shard is created
and recorded with `used_bytes = 0`; if its installation then fails, the
failure is returned as a string error (also through `write_to_bucket`),
the bucket record remains in the table with no rollback, and the next
selection picks that same shard again. -/
theorem claim8_install_failure (buckets : List (Nat × Nat)) (cap id : Nat)
    (err : String)
    (hfull : buckets.find? (fun p => p.2 < cap) = none) (hcap : 0 < cap) :
    allocate_space buckets cap (Except.ok id) (Except.error err)
        = (Except.error err, mapInsert id 0 buckets) ∧
    (id, 0) ∈ mapInsert id 0 buckets ∧
    (∀ (wr : Except String (List Nat)) (blobLen : Nat),
        write_to_bucket buckets cap (Except.ok id) (Except.error err) wr
          blobLen = (Except.error err, mapInsert id 0 buckets)) ∧
    ∀ (nc2 : Except String Nat) (ir2 : Except String Unit),
      allocate_space (mapInsert id 0 buckets) cap nc2 ir2
        = (Except.ok id, mapInsert id 0 buckets) := by
  have hsel : allocate_space buckets cap (Except.ok id) (Except.error err)
      = (Except.error err, mapInsert id 0 buckets) := by
    simp [allocate_space, hfull]
  have hnone : ∀ p ∈ buckets, (fun p : Nat × Nat => decide (p.2 < cap)) p
      = false := by
    intro p hp
    have := List.find?_eq_none.mp hfull p hp
    simpa using this
  have hf : (mapInsert id 0 buckets).find?
      (fun p : Nat × Nat => decide (p.2 < cap)) = some (id, 0) :=
    find?_mapInsert_first hnone (by simpa using hcap)
  refine ⟨hsel, mapInsert_mem_self _ _ _, ?_, ?_⟩
  · intro wr blobLen
    simp [write_to_bucket, hsel]
  · intro nc2 ir2
    simp [allocate_space, hf]

theorem claim8_install_failure_witness :
    allocate_space [] 100 (Except.ok 5) (Except.error "install failed")
        = (Except.error "install failed", [(5, 0)]) ∧
    (5, 0) ∈ mapInsert 5 0 [] ∧
    write_to_bucket [] 100 (Except.ok 5) (Except.error "install failed")
        (Except.ok [0, 0, 0, 0, 0, 0, 0, 0]) 3
        = (Except.error "install failed", [(5, 0)]) ∧
    allocate_space [(5, 0)] 100 (Except.ok 7) (Except.ok ())
        = (Except.ok 5, [(5, 0)]) := by
  have h := claim8_install_failure [] 100 5 "install failed" rfl
    (by decide)
  exact ⟨h.1, h.2.1, h.2.2.1 (Except.ok [0, 0, 0, 0, 0, 0, 0, 0]) 3,
    h.2.2.2 (Except.ok 7) (Except.ok ())⟩
